import Mathlib

/-!
Verification development for the SNBR publishing pipeline.

The Python sources under `app/` are shallowly embedded below:
strings are `List Char`, fallible code returns `Option`/`Except`,
and the process-wide mutable credential index of `AIProcessor` is
threaded as explicit state.  External collaborators (BeautifulSoup
parsing, the WordPress client, the generative-AI transport) enter the
model as explicit function parameters (oracles), so every theorem
quantifies over their behaviour.
-/

/-! ## Generic character and list utilities -/

/-- The opening curly-brace character. -/
def obrace : Char := Char.ofNat 123

/-- The closing curly-brace character. -/
def cbrace : Char := Char.ofNat 125

/-- Python `str.lower` on a single character (ASCII-adequate model). -/
def lowerL (s : List Char) : List Char := s.map Char.toLower

/-- Substring occurrence test: does `pat` occur contiguously in `s`?
Models Python's `in` operator on strings. -/
def occursInB (pat : List Char) : List Char → Bool
  | [] => pat.isPrefixOf []
  | c :: s => pat.isPrefixOf (c :: s) || occursInB pat s

/-- Split `s` at the first occurrence of the character `t`,
returning the parts before and after it (the separator removed);
`none` when `t` does not occur. -/
def splitFirstChar (t : Char) : List Char → Option (List Char × List Char)
  | [] => none
  | c :: s =>
    if c = t then some ([], s)
    else (splitFirstChar t s).map (fun p => (c :: p.1, p.2))

/-- Python `str.replace` (all occurrences, leftmost first,
non-overlapping) for the nonempty pattern `p :: ps`. -/
def replaceAllAux (p : Char) (ps rep : List Char) : List Char → List Char
  | [] => []
  | c :: s =>
    if (p :: ps).isPrefixOf (c :: s) then rep ++ replaceAllAux p ps rep (s.drop ps.length)
    else c :: replaceAllAux p ps rep s
termination_by s => s.length
decreasing_by
  · simp only [List.length_cons]
    have := List.length_drop ps.length s
    omega
  · simp

/-- Python `str.replace` on char lists; the empty pattern (never used
by the embedded code) is modelled as the identity. -/
def replaceAll (pat rep s : List Char) : List Char :=
  match pat with
  | [] => s
  | p :: ps => replaceAllAux p ps rep s

/-- Digits-to-number conversion, models Python `int` on a digit string. -/
def digitsToNat (ds : List Char) : Nat :=
  ds.foldl (fun n c => n * 10 + (c.toNat - 48)) 0

/-! ## `worker.is_valid_upload_candidate` (app/worker.py lines 39-53)

`app/worker.py` imports `logging`, `time`, `random`, `json`,
`urllib.parse.urlparse`, `bs4.BeautifulSoup` and a number of names from
sibling modules (lines 1-29) — but NOT the `re` module, even though
line 49 evaluates `re.findall(...)`.  Python resolves the name `re`
against the module globals at run time, so that line raises
`NameError`, which the surrounding `except Exception` swallows into
`return False`.  The embedding makes the name resolution explicit. -/

/-- Names bound at module level in `app/worker.py` (its imports plus
the module-level definitions).  `re` is absent: the module never
imports it. -/
def workerModuleGlobals : List String :=
  ["logging", "time", "random", "json", "urlparse", "BeautifulSoup",
   "AIProcessor", "Quota429Error", "JsonFormatError", "AIProcessorError",
   "WordPressClient", "BACKOFF_BASE", "BACKOFF_MAX", "MAX_JSON_RETRY",
   "WORDPRESS_CONFIG", "WORDPRESS_CATEGORIES", "CATEGORY_ALIASES",
   "RSS_FEEDS", "Database", "ContentExtractor",
   "merge_images_into_content", "rewrite_img_srcs_with_wp",
   "strip_credits_and_normalize_youtube", "remove_broken_image_placeholders",
   "strip_naked_internal_links", "add_internal_links",
   "clean_html_for_globo_esporte", "log", "CLEANER_FUNCTIONS"]

/-- Result of `urllib.parse.urlparse`, restricted to the components the
worker reads. -/
structure UrlParts where
  scheme : List Char
  netloc : List Char
  path : List Char
  query : List Char

/-- Characters allowed in a URL scheme (RFC 3986, as `urllib` checks). -/
def isSchemeChar (c : Char) : Bool :=
  c.isAlpha || c.isDigit || c = '+' || c = '-' || c = '.'

/-- Model of `urllib.parse.urlparse` for the components used by
`is_valid_upload_candidate`: scheme before `:` (when it is a valid
scheme token), netloc after `//` up to the next `/`, `?` or `#`, then
the fragment is split off at `#` and the query at `?`. -/
def urlparse (url : List Char) : UrlParts :=
  let schemeSplit :=
    match splitFirstChar ':' url with
    | some (a, b) =>
      if a ≠ [] ∧ a.all isSchemeChar ∧ (a.headD ' ').isAlpha then (a, b) else (([] : List Char), url)
    | none => (([] : List Char), url)
  let sch := schemeSplit.1
  let rest := schemeSplit.2
  let netlocSplit :=
    if ('/' :: '/' :: []).isPrefixOf rest then
      let r2 := rest.drop 2
      (r2.takeWhile (fun c => ¬ (c = '/' ∨ c = '?' ∨ c = '#')),
       r2.dropWhile (fun c => ¬ (c = '/' ∨ c = '?' ∨ c = '#')))
    else (([] : List Char), rest)
  let afterFrag :=
    match splitFirstChar '#' netlocSplit.2 with
    | some (a, _) => a
    | none => netlocSplit.2
  match splitFirstChar '?' afterFrag with
  | some (a, b) => ⟨sch, netlocSplit.1, a, b⟩
  | none => ⟨sch, netlocSplit.1, afterFrag, []⟩

/-- The ad/tracking hosts blocked at worker.py line 46. -/
def trackingHosts : List (List Char) :=
  ["sb.scorecardresearch.com".data, "securepubads.g.doubleclick.net".data]

/-- The image-file extensions accepted at worker.py line 47. -/
def imageExtensions : List (List Char) :=
  [".jpg".data, ".jpeg".data, ".png".data, ".webp".data, ".gif".data]

/-- Maximal leading run of decimal digits. -/
def digitRun (s : List Char) : List Char × List Char :=
  (s.takeWhile Char.isDigit, s.dropWhile Char.isDigit)

/-- One attempted match of `(?:w|width|h|height)=(\d+)` directly after a
`?` or `&`.  The four alternatives are mutually exclusive at a given
position, so Python's leftmost-alternative backtracking reduces to this
if-chain.  Returns the captured digit run and the rest of the input. -/
def matchDimAt (s : List Char) : Option (List Char × List Char) :=
  let keys := ["w=".data, "width=".data, "h=".data, "height=".data]
  match keys.find? (fun k => k.isPrefixOf s) with
  | none => none
  | some k =>
    let after := s.drop k.length
    let d := digitRun after
    if d.1 = [] then none else some (d.1, d.2)

/-- All captures of `re.findall(r'[?&](?:w|width|h|height)=(\d+)', s)`,
scanning left to right.  `re.findall` resumes after each match, but a
matched span `[?&]key=digits` never contains a further `?` or `&`, so
rescanning from the next character finds exactly the same matches. -/
def findallDims : List Char → List (List Char)
  | [] => []
  | c :: s =>
    if c = '?' ∨ c = '&' then
      match matchDimAt s with
      | some (d, _) => d :: findallDims s
      | none => findallDims s
    else findallDims s

/-- The Python exceptions that the embedded worker code can raise. -/
inductive PyError where
  | nameError
  | attributeError
  | quota429
  | jsonFormat
  | generic
deriving DecidableEq

/-- The `try:` body of `is_valid_upload_candidate` (worker.py 42-51).
The final step evaluates `re.findall`, which requires the name `re` to
be bound in the module globals; it is not, so that step raises
`NameError` instead of producing a value. -/
def uploadCandidateTryBody (lowerUrl : List Char) : Except PyError Bool :=
  let p := urlparse lowerUrl
  if ¬ ("http".data.isPrefixOf p.scheme) then .ok false
  else if trackingHosts.contains p.netloc then .ok false
  else if ¬ (imageExtensions.any (fun e => e.isSuffixOf p.path)) then .ok false
  else if occursInB "author".data lowerUrl ∨ occursInB "avatar".data lowerUrl then .ok false
  else if workerModuleGlobals.contains "re" then
    .ok (¬ (findallDims lowerUrl).any (fun d => digitsToNat d ≤ 100))
  else .error .nameError

/-- `worker.is_valid_upload_candidate` as written: empty URL is
rejected up front, every exception in the try body yields `False`. -/
def is_valid_upload_candidate (url : String) : Bool :=
  if url.data = [] then false
  else
    match uploadCandidateTryBody (lowerL url.data) with
    | .ok b => b
    | .error _ => false

/-- Modelled from the spec (§4.3 step 4): the upload-candidate filter as
specified — HTTP(S) scheme, not a tracking host, image extension, no
"author"/"avatar" substring, and no width/height query parameter ≤ 100.
This is the intended behaviour of worker.py lines 39-53 had `re` been
imported; kept separate to compare against `is_valid_upload_candidate`. -/
def is_valid_upload_candidate_spec (url : String) : Bool :=
  if url.data = [] then false
  else
    let lowerUrl := lowerL url.data
    let p := urlparse lowerUrl
    if ¬ ("http".data.isPrefixOf p.scheme) then false
    else if trackingHosts.contains p.netloc then false
    else if ¬ (imageExtensions.any (fun e => e.isSuffixOf p.path)) then false
    else if occursInB "author".data lowerUrl ∨ occursInB "avatar".data lowerUrl then false
    else ¬ (findallDims lowerUrl).any (fun d => digitsToNat d ≤ 100)

/-! ## `worker.process_one_article` (app/worker.py lines 61-204)

The worker drives one article through AI rewriting and publication.
Its first step inside the retry loop is
`ai_processor.send_to_ai_and_validate(article, force_json=...)`
(line 78), and its `Quota429Error`/`JsonFormatError` handlers call
`ai_processor.get_current_key_index()` and
`ai_processor.failover_to_next_key()` (lines 183, 186, 191).  The
`AIProcessor` class (app/ai_processor.py) defines none of these
attributes, so Python attribute lookup raises `AttributeError`.
Attribute resolution is modelled explicitly against the set of names
the class and its `__init__` actually bind. -/

/-- The attributes an `AIProcessor` instance actually has: methods
defined on the class (ai_processor.py lines 40-285), the class variable
`_prompt_template`, and the instance fields assigned in `__init__`. -/
def aiProcessorAttrs : List String :=
  ["__init__", "_configure_model_with_key", "_failover_to_next_key",
   "_load_prompt_template", "_safe_format_prompt", "rewrite_content",
   "_parse_response", "_prompt_template", "api_keys", "current_key_index",
   "model"]

/-- Python attribute lookup on an `AIProcessor` instance: produces the
attribute when the class defines it, raises `AttributeError` otherwise.
The `impl` argument is what the bound method would do when invoked. -/
def callAiMethod {α : Type} (name : String) (impl : Unit → Except PyError α) :
    Except PyError α :=
  if aiProcessorAttrs.contains name then impl () else .error .attributeError

/-- Persisted article statuses (app/store.py `update_article_status` /
`save_processed_post` effects, as driven by the worker). -/
inductive ArticleStatus where
  | processing
  | published
  | failed
deriving DecidableEq

/-- Terminal behaviour of one `process_one_article` call: the sequence of
statuses persisted for the article, and either the returned Bool or an
exception escaping the function. -/
inductive WorkerOutcome where
  | returned (statusTrace : List ArticleStatus) (value : Bool)
  | raised (statusTrace : List ArticleStatus) (e : PyError)
  | fuelOut (statusTrace : List ArticleStatus)
deriving DecidableEq

/-- The `try:` body of the worker loop (worker.py lines 75-179).  It
starts with the `send_to_ai_and_validate` attribute access and call;
everything after that call (extraction, transforms, publishing) is
abstracted by the oracle `rest`, which receives the `force_json` flag
and either completes the body (publishing succeeds, the body returns
True) or raises.  The AI call result itself is likewise summarised by
the oracle, since it is only consumed by the later steps. -/
def workerTryBody (rest : Bool → Except PyError Unit) (jsonRetryUsed : Bool) :
    Except PyError Unit :=
  match callAiMethod "send_to_ai_and_validate" (fun _ => .ok ()) with
  | .error e => .error e
  | .ok _ => rest jsonRetryUsed

/-- The `while True:` retry loop of `process_one_article`
(worker.py 74-201), with explicit fuel for the unbounded loop.  State:
`jsonRetryUsed` flag, `backoffAttempt` counter, accumulated status
trace (most recent first).  The exception handlers mirror lines
181-201; the `Quota429Error` and `JsonFormatError` handlers first
evaluate log messages that call the missing attributes
`get_current_key_index`/`failover_to_next_key`, so those lookups are
modelled before the handler's own control flow. -/
def workerLoop (rest : Bool → Except PyError Unit) (maxJsonRetry : Nat) :
    Nat → Bool → Nat → List ArticleStatus → WorkerOutcome
  | 0, _, _, trace => .fuelOut trace.reverse
  | fuel + 1, jsonRetryUsed, backoffAttempt, trace =>
    match workerTryBody rest jsonRetryUsed with
    | .ok _ => .returned (ArticleStatus.published :: trace).reverse true
    | .error e =>
      if e = .quota429 then
        -- line 183: the log f-string calls ai_processor.get_current_key_index()
        match callAiMethod "get_current_key_index" (fun _ => .ok (0 : Nat)) with
        | .error e2 => .raised trace.reverse e2
        | .ok _ =>
          if backoffAttempt + 1 ≥ 3 then
            match callAiMethod "failover_to_next_key" (fun _ => .ok ()) with
            | .error e2 => .raised trace.reverse e2
            | .ok _ => workerLoop rest maxJsonRetry fuel jsonRetryUsed 0 trace
          else workerLoop rest maxJsonRetry fuel jsonRetryUsed (backoffAttempt + 1) trace
      else if e = .jsonFormat then
        if ¬ jsonRetryUsed ∧ 0 < maxJsonRetry then
          -- line 191: the log f-string calls ai_processor.get_current_key_index()
          match callAiMethod "get_current_key_index" (fun _ => .ok (0 : Nat)) with
          | .error e2 => .raised trace.reverse e2
          | .ok _ => workerLoop rest maxJsonRetry fuel true backoffAttempt trace
        else .returned (ArticleStatus.failed :: trace).reverse false
      else .returned (ArticleStatus.failed :: trace).reverse false

/-- `worker.process_one_article`: persists PROCESSING (line 72), then
runs the retry loop. -/
def process_one_article (rest : Bool → Except PyError Unit) (maxJsonRetry : Nat)
    (fuel : Nat) : WorkerOutcome :=
  workerLoop rest maxJsonRetry fuel false 0 [ArticleStatus.processing]

/-! ## `AIProcessor.rewrite_content` (app/ai_processor.py lines 132-227)
and `_failover_to_next_key` (lines 84-93)

The generative-AI transport is abstracted by an oracle mapping a
(credential index, model name) pair to the outcome of the whole
configure/generate/parse attempt.  The process-wide
`self.current_key_index` is threaded explicitly; note that
`_configure_model_with_key` assigns it before anything can fail. -/

/-- `AIProcessor._failover_to_next_key` (lines 84-93): advance
`current_key_index`; past the end of the pool of size `numKeys`,
reset it to 0. -/
def failover_to_next_key (numKeys i : Nat) : Nat :=
  if i + 1 < numKeys then i + 1 else 0

/-- Outcome of one `(credential, model)` attempt inside
`rewrite_content`'s try block (lines 193-220). -/
inductive AttemptOutcome where
  | parsedOk        -- response parsed and validated, no rejection field
  | rejectedErro    -- parsed object carries the explicit `erro` field
  | parseInvalid    -- `_parse_response` returned None → AIProcessorError raised
  | quotaExhausted  -- google ResourceExhausted
  | permissionDenied
  | notFoundErr
  | unexpectedErr   -- any other exception from generate_content
  | configError     -- `_configure_model_with_key` raised AIProcessorError
deriving DecidableEq

/-- The errors that line 212 catches and turns into "try next model":
`NotFound`, `PermissionDenied`, `ResourceExhausted`. -/
def skipsToNextModel : AttemptOutcome → Bool
  | .quotaExhausted => true
  | .permissionDenied => true
  | .notFoundErr => true
  | _ => false

/-- How the inner `for model_name in models_to_try:` loop ended. -/
inductive ModelPhaseExit where
  | success       -- returned (parsed_data, None)
  | softReject    -- returned (None, parsed_data['erro'])
  | exhaustedModels -- every model hit a skip-class error; fall through
  | brokeOut      -- `break` from the except Exception handler
deriving DecidableEq

/-- The inner model loop for credential `k` (lines 192-220): returns the
`(key, model)` attempts made, in order, and how the loop ended.
Configuration happens before generation, so an attempt is recorded for
a model even when configuration itself fails. -/
def tryModelsForKey (oracle : Nat → String → AttemptOutcome) (k : Nat) :
    List String → List (Nat × String) × ModelPhaseExit
  | [] => ([], .exhaustedModels)
  | m :: ms =>
    match oracle k m with
    | .parsedOk => ([(k, m)], .success)
    | .rejectedErro => ([(k, m)], .softReject)
    | .quotaExhausted =>
      let r := tryModelsForKey oracle k ms
      ((k, m) :: r.1, r.2)
    | .permissionDenied =>
      let r := tryModelsForKey oracle k ms
      ((k, m) :: r.1, r.2)
    | .notFoundErr =>
      let r := tryModelsForKey oracle k ms
      ((k, m) :: r.1, r.2)
    | _ => ([(k, m)], .brokeOut)

/-- How a whole `rewrite_content` call ended. -/
inductive RewriteOutcome where
  | success (keyIdx : Nat)     -- returned (parsed_data, None) using this key
  | softReject (keyIdx : Nat)  -- returned (None, erro)
  | allFailed                   -- fell off the while loop: (None, reason)
deriving DecidableEq

/-- Trace of one `rewrite_content` call: every `(key, model)` attempt
in order, the outcome, and the final value of the process-wide
`current_key_index`. -/
structure RewriteRun where
  attempts : List (Nat × String)
  outcome : RewriteOutcome
  finalIndex : Nat
deriving DecidableEq

/-- The outer `while key_index < len(self.api_keys):` loop (lines
189-223), iterated over the remaining key indices.  `cur` is the
current value of `self.current_key_index`; entering a key `k` sets it
to `k` via `_configure_model_with_key`, and a success additionally
calls `_failover_to_next_key` (line 209). -/
def rewriteKeysLoop (oracle : Nat → String → AttemptOutcome) (numKeys : Nat)
    (models : List String) : List Nat → Nat → RewriteRun
  | [], cur => ⟨[], .allFailed, cur⟩
  | k :: ks, _cur =>
    let step := tryModelsForKey oracle k models
    match step.2 with
    | .success => ⟨step.1, .success k, failover_to_next_key numKeys k⟩
    | .softReject => ⟨step.1, .softReject k, k⟩
    | _ =>
      let r := rewriteKeysLoop oracle numKeys models ks k
      ⟨step.1 ++ r.attempts, r.outcome, r.finalIndex⟩

/-- `AIProcessor.rewrite_content` with a pool of `numKeys` keys,
models `[primary, fallback]` (AI_MODELS), starting from
`self.current_key_index = start`. -/
def rewrite_content_run (oracle : Nat → String → AttemptOutcome)
    (numKeys : Nat) (primary fallback : String) (start : Nat) : RewriteRun :=
  rewriteKeysLoop oracle numKeys [primary, fallback]
    (List.range' start (numKeys - start)) start

/-! ## `AIProcessor._parse_response` validation (ai_processor.py 241-276)

The claim concerns the structural validation applied after
`json.loads` succeeded, so the embedding starts from the parsed JSON
value.  Python objects have unique keys; association lists with
`lookup`-first semantics model them. -/

/-- Parsed JSON values. -/
inductive JVal where
  | jstr (s : String)
  | jnum (n : Int)
  | jbool (b : Bool)
  | jnull
  | jarr (xs : List JVal)
  | jobj (fields : List (String × JVal))

/-- Python `key in data` on an object's field list. -/
def hasKey (fields : List (String × JVal)) (k : String) : Bool :=
  fields.any (fun kv => kv.1 = k)

/-- Python `data[key]` on an object's field list (first binding). -/
def lookupKey (fields : List (String × JVal)) (k : String) : Option JVal :=
  match fields.find? (fun kv => kv.1 = k) with
  | some kv => some kv.2
  | none => none

/-- The `required_keys` list (ai_processor.py lines 251-254). -/
def requiredKeys : List String :=
  ["titulo_final", "conteudo_final", "meta_description",
   "focus_keyword", "tags", "yoast_meta"]

/-- The `required_yoast_keys` list (ai_processor.py lines 263-266). -/
def requiredYoastKeys : List String :=
  ["_yoast_wpseo_title", "_yoast_wpseo_metadesc",
   "_yoast_wpseo_focuskw", "_yoast_news_keywords"]

/-- `_parse_response` from the point where `json.loads` produced
`data` (lines 243-276): reject non-objects; pass through objects with
an explicit `erro` field; require every key of `requiredKeys`; require
`yoast_meta` to be an object containing every key of
`requiredYoastKeys`.  `none` models `return None` (a `FormatInvalid`
for the caller). -/
def validate_response (data : JVal) : Option JVal :=
  match data with
  | .jobj fields =>
    if hasKey fields "erro" then some (.jobj fields)
    else if ¬ (requiredKeys.filter (fun k => ¬ hasKey fields k)).isEmpty then none
    else
      match lookupKey fields "yoast_meta" with
      | some (.jobj yfields) =>
        if ¬ (requiredYoastKeys.filter (fun k => ¬ hasKey yfields k)).isEmpty then none
        else some (.jobj fields)
      | _ => none
  | _ => none

/-! ## `internal_linking.add_internal_links` (app/internal_linking.py)

BeautifulSoup enters the model as an explicit `parse` oracle producing
the document's body text nodes (each with the tag names of all its
ancestors), or `none` when the parsed document has no `<body>` element
— in that case `soup.body` is `None` and line 65 (`soup.body.find_all`)
raises `AttributeError`.  The algorithm over the text nodes (lines
36-106) is embedded directly. -/

/-- `EXCLUDED_TAGS` (internal_linking.py line 9). -/
def EXCLUDED_TAGS : List String :=
  ["a", "h1", "h2", "h3", "h4", "h5", "h6", "blockquote", "code",
   "pre", "figure", "figcaption"]

/-- One entry of `link_map_data['posts']`. -/
structure LinkEntry where
  title : String
  link : String
  categories : List Nat
deriving DecidableEq

/-- A text node of the parsed body: its text and the tag names of all
its ancestor elements. -/
structure TextNode where
  ancestors : List String
  text : List Char
deriving DecidableEq

/-- A text node after processing: possibly rewritten text, and the
catalog entry whose anchor was inserted into it, if any. -/
structure ProcNode where
  ancestors : List String
  text : List Char
  linked : Option LinkEntry
deriving DecidableEq

/-- `node.find_parent(tag)` over `EXCLUDED_TAGS` (line 71): true iff
any ancestor, at any level, is one of the excluded tags. -/
def excludedNode (n : TextNode) : Bool :=
  n.ancestors.any (fun t => EXCLUDED_TAGS.contains t)

/-- Stable insertion into a list sorted by descending title length:
the new entry goes after every entry of length ≥ its own. -/
def insertDescLen (e : LinkEntry) : List LinkEntry → List LinkEntry
  | [] => [e]
  | x :: xs =>
    if x.title.length < e.title.length then e :: x :: xs
    else x :: insertDescLen e xs

/-- Python's stable `list.sort(key=len(title), reverse=True)`
(lines 57-60): descending title length, ties keep catalog order. -/
def sortByTitleLenDesc (l : List LinkEntry) : List LinkEntry :=
  l.foldl (fun acc e => insertDescLen e acc) []

/-- `shares_category` (line 47): the current category set is non-empty
and intersects the entry's categories. -/
def sharesCategory (cats : List Nat) (p : LinkEntry) : Bool :=
  (¬ cats.isEmpty) && cats.any (fun c => p.categories.contains c)

/-- The prioritisation of lines 38-63: partition into pillar /
same-category / other preserving catalog order, sort each tier by
descending title length (stable), concatenate pillar → category →
other. -/
def prioritizeOptions (pilarPosts : List String) (posts : List LinkEntry)
    (cats : List Nat) : List LinkEntry :=
  let pilarOpts := posts.filter (fun p => pilarPosts.contains p.link)
  let categoryOpts := posts.filter
    (fun p => ¬ pilarPosts.contains p.link ∧ sharesCategory cats p)
  let otherOpts := posts.filter
    (fun p => ¬ pilarPosts.contains p.link ∧ ¬ sharesCategory cats p)
  sortByTitleLenDesc pilarOpts ++ sortByTitleLenDesc categoryOpts ++
    sortByTitleLenDesc otherOpts

/-- Python `\w` (ASCII-adequate): letters, digits, underscore. -/
def isWordChar (c : Char) : Bool := c.isAlphanum || c = '_'

/-- Word-character test on an optional character; absent characters
(string boundaries) count as non-word, as for `re`'s `\b`. -/
def isWordOpt : Option Char → Bool
  | some c => isWordChar c
  | none => false

/-- `\b` holds between two adjacent positions iff exactly one side is a
word character. -/
def wordBoundary (a b : Option Char) : Bool := isWordOpt a != isWordOpt b

/-- Does the pattern `\b<kw>\b` (case-insensitive, `kw` taken
literally thanks to `re.escape`) match at the current position, whose
preceding character is `prev`? -/
def matchesAt (kw : List Char) (prev : Option Char) (s : List Char) : Bool :=
  (lowerL kw).isPrefixOf (lowerL s) &&
  wordBoundary prev s.head? &&
  wordBoundary (s.take kw.length).getLast? (s.drop kw.length).head?

/-- The anchor text `f'<a href="{url}">{keyword}</a>'` (line 90). -/
def anchorTag (url kw : List Char) : List Char :=
  "<a href=\"".data ++ url ++ "\">".data ++ kw ++ "</a>".data

/-- `pattern.sub(link_tag_str, original_text, count=1)` after a
successful `pattern.search` (lines 89-91): replace the leftmost
whole-word occurrence of `kw` with the anchor; `none` when there is no
match. -/
def subFirstMatch (kw url : List Char) (prev : Option Char) :
    List Char → Option (List Char)
  | [] => if matchesAt kw prev [] then some (anchorTag url kw) else none
  | c :: s =>
    if matchesAt kw prev (c :: s) then
      some (anchorTag url kw ++ (c :: s).drop kw.length)
    else (subFirstMatch kw url (some c) s).map (c :: ·)

/-- The inner `for link_option in prioritized_link_options:` loop
(lines 76-104) on one text node: skip used URLs, take the first entry
whose title matches, and produce the rewritten text. -/
def tryEntries (used : List String) (text : List Char) :
    List LinkEntry → Option (LinkEntry × List Char)
  | [] => none
  | e :: es =>
    if used.contains e.link then tryEntries used text es
    else
      match subFirstMatch e.title.data e.link.data none text with
      | some newText => some (e, newText)
      | none => tryEntries used text es

/-- Mutable loop state: `links_inserted` and `used_urls`. -/
structure LinkState where
  inserted : Nat
  used : List String
deriving DecidableEq

/-- Processing of one text node (lines 67-104).  When `links_inserted`
has reached `max_links` the outer loop has broken, so the node is left
untouched; nodes under an excluded tag are skipped; otherwise the
first matching unused entry is inserted and the loop moves to the next
node.  (The re-check of `links_inserted` at line 77 is redundant: the
counter cannot change between line 68 and a first insertion.) -/
def processNode (opts : List LinkEntry) (maxLinks : Nat) (st : LinkState)
    (n : TextNode) : LinkState × ProcNode :=
  if st.inserted ≥ maxLinks then (st, ⟨n.ancestors, n.text, none⟩)
  else if excludedNode n then (st, ⟨n.ancestors, n.text, none⟩)
  else
    match tryEntries st.used n.text opts with
    | none => (st, ⟨n.ancestors, n.text, none⟩)
    | some (e, newText) =>
      (⟨st.inserted + 1, e.link :: st.used⟩, ⟨n.ancestors, newText, some e⟩)

/-- The outer `for node in text_nodes:` loop, threading the state. -/
def processNodes (opts : List LinkEntry) (maxLinks : Nat) :
    LinkState → List TextNode → List ProcNode
  | _, [] => []
  | st, n :: ns =>
    let r := processNode opts maxLinks st n
    r.2 :: processNodes opts maxLinks r.1 ns

/-- Result of `add_internal_links`. -/
inductive LinkResult where
  | unchanged                       -- early return of the input HTML (line 30)
  | attrError                       -- `soup.body` is None: line 65 raises
  | transformed (nodes : List ProcNode)
deriving DecidableEq

/-- `add_internal_links` (internal_linking.py lines 11-106).
`pilarPosts` is the configured `PILAR_POSTS` allow-list and `parse`
abstracts `BeautifulSoup(html_content, 'html.parser')` followed by
`soup.body.find_all(string=True)`; `parse` yields `none` exactly when
the parsed document has no body element. -/
def add_internal_links (pilarPosts : List String)
    (parse : String → Option (List TextNode)) (htmlContent : String)
    (posts : List LinkEntry) (currentPostCategories : List Nat)
    (maxLinks : Nat) : LinkResult :=
  if htmlContent.data = [] ∨ posts = [] then .unchanged
  else
    match parse htmlContent with
    | none => .attrError
    | some nodes =>
      .transformed (processNodes
        (prioritizeOptions pilarPosts posts currentPostCategories)
        maxLinks ⟨0, []⟩ nodes)

/-- Number of anchors inserted across the processed nodes. -/
def countLinked (nodes : List ProcNode) : Nat :=
  (nodes.filterMap ProcNode.linked).length

/-- URLs of the anchors inserted across the processed nodes, in order. -/
def linkedUrls (nodes : List ProcNode) : List String :=
  nodes.filterMap (fun n => n.linked.map LinkEntry.link)

/-! ## `AIProcessor._safe_format_prompt` (ai_processor.py lines 114-130)

The method escapes every brace of the template by doubling it, then
for each field key un-escapes the doubled form of `\x7bkey\x7d` back to
single braces, and finally applies `str.format_map` with a dict whose
missing keys yield the empty string.  `str.replace` is `replaceAll`
above; `format_map` is modelled as the scanner `formatMapGo`. -/

/-- Resolution of one replacement field: the field name is the part
before any `!` conversion or `:` format spec, looked up in the fields
with `_SafeDict` semantics (missing keys yield the empty string).
Conversions and format specs never occur in this repository's
templates and are modelled as the identity on the value. -/
def fieldValue (fields : List (String × String)) (fld : List Char) : List Char :=
  let nameChars := fld.takeWhile (fun c => ¬ (c = ':' ∨ c = '!'))
  match fields.find? (fun kv => kv.1.data = nameChars) with
  | some kv => kv.2.data
  | none => []

/-- Scanner state for `str.format_map`: plain text, just after an
unmatched `\x7b`, inside a replacement field (accumulated reversed), or
just after an unmatched `\x7d`. -/
inductive FmtMode where
  | text
  | afterOpen
  | inField (acc : List Char)
  | afterClose

/-- `str.format_map` on char lists: doubled braces become literal
braces, `\x7bfield\x7d` becomes the field's value, and a stray single
brace (including the empty field `\x7b\x7d`, which auto-numbers and
fails with no positional arguments) is an error, modelled as `none`. -/
def formatMapGo (fields : List (String × String)) :
    FmtMode → List Char → Option (List Char)
  | .text, [] => some []
  | .afterOpen, [] => none
  | .inField _, [] => none
  | .afterClose, [] => none
  | .text, c :: s =>
    if c = obrace then formatMapGo fields .afterOpen s
    else if c = cbrace then formatMapGo fields .afterClose s
    else (formatMapGo fields .text s).map (c :: ·)
  | .afterOpen, c :: s =>
    if c = obrace then (formatMapGo fields .text s).map (obrace :: ·)
    else if c = cbrace then none
    else formatMapGo fields (.inField [c]) s
  | .inField acc, c :: s =>
    if c = cbrace then
      (formatMapGo fields .text s).map (fieldValue fields acc.reverse ++ ·)
    else formatMapGo fields (.inField (c :: acc)) s
  | .afterClose, c :: s =>
    if c = cbrace then (formatMapGo fields .text s).map (cbrace :: ·)
    else none

/-- `AIProcessor._safe_format_prompt`: double every brace, un-escape
the recognised placeholders (in the fields' iteration order), then
format.  `none` models a formatting exception, which the method does
not catch. -/
def safe_format_prompt (template : List Char) (fields : List (String × String)) :
    Option (List Char) :=
  let s0 := replaceAll [obrace] [obrace, obrace] template
  let s1 := replaceAll [cbrace] [cbrace, cbrace] s0
  let s2 := fields.foldl
    (fun s kv =>
      replaceAll (obrace :: obrace :: (kv.1.data ++ [cbrace, cbrace]))
        (obrace :: (kv.1.data ++ [cbrace])) s) s1
  formatMapGo fields .text s2

/-- Doubling of every brace character: the composed effect of the two
escaping `str.replace` calls of `_safe_format_prompt`. -/
def escapeDouble : List Char → List Char
  | [] => []
  | c :: s =>
    if c = obrace ∨ c = cbrace then c :: c :: escapeDouble s
    else c :: escapeDouble s

/-- The single-brace placeholder form of a key: `\x7bkey\x7d`. -/
def placeholderOf (key : String) : List Char := obrace :: (key.data ++ [cbrace])

/-- A character list containing no brace character. -/
def braceFree (s : List Char) : Bool :=
  s.all (fun c => ¬ (c = obrace ∨ c = cbrace))

/-- A key is brace-free and nonempty (true of all of
`rewrite_content`'s field names). -/
def goodKey (key : String) : Bool :=
  ¬ key.data.isEmpty && braceFree key.data

/-- The placeholder names `rewrite_content` passes to
`_safe_format_prompt` (ai_processor.py lines 167-182). -/
def aiPromptFieldKeys : List String :=
  ["titulo_original", "url_original", "content", "domain", "fonte_nome",
   "categoria", "schema_original", "tag", "tags", "videos_list",
   "imagens_list", "titulo_final", "meta_description", "focus_keyword"]

/-- Reference renderer following the spec's words ("only recognized
placeholder names are substituted, everything else passes through
unchanged"): scan the template left to right; an occurrence of
`\x7bkey\x7d` for a recognised field key is replaced by that field's
value, and every other character — literal braces included — is copied
verbatim.  At any position at most one key can match, because keys are
brace-free and delimited by the closing brace.  To be compared with
`safe_format_prompt`, the embedding of the source. -/
def specRender (fields : List (String × String)) : List Char → List Char
  | [] => []
  | c :: s =>
    if c = obrace then
      match fields.find? (fun kv => (kv.1.data ++ [cbrace]).isPrefixOf s) with
      | some kv => kv.2.data ++ specRender fields (s.drop (kv.1.data.length + 1))
      | none => c :: specRender fields s
    else c :: specRender fields s
termination_by s => s.length
decreasing_by
  all_goals simp only [List.length_cons, List.length_drop]
  all_goals omega

/-- Proof intermediate: the template after escaping and after
un-escaping the placeholders of the keys in `sel` — a recognised
placeholder of a selected key keeps single braces, every other brace
is doubled, all other characters are unchanged.  `markWith [] t` is the
fully escaped template and `markWith fields t` is the string that
`_safe_format_prompt` hands to `format_map`. -/
def markWith (sel : List (String × String)) : List Char → List Char
  | [] => []
  | c :: s =>
    if c = obrace then
      match sel.find? (fun kv => (kv.1.data ++ [cbrace]).isPrefixOf s) with
      | some kv =>
        obrace :: (kv.1.data ++ [cbrace]) ++
          markWith sel (s.drop (kv.1.data.length + 1))
      | none => obrace :: obrace :: markWith sel s
    else if c = cbrace then cbrace :: cbrace :: markWith sel s
    else c :: markWith sel s
termination_by s => s.length
decreasing_by
  all_goals simp only [List.length_cons, List.length_drop]
  all_goals omega

/-! ## Concrete scenarios used by the claims -/

/-- Catalog entry A: pillar tier, title "Team X". -/
def teamXEntry : LinkEntry := ⟨"Team X", "https://site.example/pilar-team-x", []⟩

/-- Catalog entry B: same-category tier, title "Team X Rivalry". -/
def teamXRivalryEntry : LinkEntry :=
  ⟨"Team X Rivalry", "https://site.example/team-x-rivalry", [7]⟩

/-- The single body text node mentioning "Team X Rivalry" exactly once. -/
def rivalryNode : TextNode := ⟨["p", "body"], "Sobre Team X Rivalry hoje".data⟩

/-- Five catalog entries, all in the "other" tier, each matching one
paragraph of the five-paragraph body below. -/
def fiveEntries : List LinkEntry :=
  [⟨"Alpha", "https://s.example/alpha", []⟩,
   ⟨"Bravo", "https://s.example/bravo", []⟩,
   ⟨"Charlie", "https://s.example/charlie", []⟩,
   ⟨"Delta", "https://s.example/delta", []⟩,
   ⟨"Echo", "https://s.example/echo", []⟩]

/-- Five body text regions, one per entry of `fiveEntries`. -/
def fiveNodes : List TextNode :=
  [⟨["p", "body"], "fala de Alpha aqui".data⟩,
   ⟨["p", "body"], "fala de Bravo aqui".data⟩,
   ⟨["p", "body"], "fala de Charlie aqui".data⟩,
   ⟨["p", "body"], "fala de Delta aqui".data⟩,
   ⟨["p", "body"], "fala de Echo aqui".data⟩]

/-! # Theorems -/

/-! ## C1: `process_one_article` always fails -/

/-- Helper: the try body of the worker loop always raises
`AttributeError`, because `AIProcessor` does not define
`send_to_ai_and_validate`. -/
theorem workerTryBody_attributeError (rest : Bool → Except PyError Unit)
    (jsonRetryUsed : Bool) :
    workerTryBody rest jsonRetryUsed = .error .attributeError := rfl

/-- **C1.** For every article (i.e. for every behaviour `rest` of the
post-AI steps, every `MAX_JSON_RETRY` configuration and any loop fuel),
`process_one_article` persists PROCESSING then FAILED and returns
False; the success branch is unreachable, because the very first step
looks up `send_to_ai_and_validate` on `AIProcessor`, which does not
define it, so the first attempt raises `AttributeError` and the
catch-all `except Exception` handler persists FAILED. -/
theorem process_one_article_always_fails (rest : Bool → Except PyError Unit)
    (maxJsonRetry fuel : Nat) :
    process_one_article rest maxJsonRetry (fuel + 1) =
      .returned [ArticleStatus.processing, ArticleStatus.failed] false := rfl

/-! ## C2: the upload-candidate filter (code bug: missing `import re`) -/

/-- Helper: the try body of `is_valid_upload_candidate` can only return
False or raise `NameError`: the width/height check is unreachable
because `re` is not among the worker module's globals. -/
theorem uploadCandidateTryBody_cases (lowerUrl : List Char) :
    uploadCandidateTryBody lowerUrl = .ok false ∨
    uploadCandidateTryBody lowerUrl = .error .nameError := by
  unfold uploadCandidateTryBody
  dsimp only
  split_ifs <;>
    first
      | exact .inl rfl
      | exact .inr rfl
      | exact absurd (by assumption : workerModuleGlobals.contains "re" = true)
          (by decide)

/-- **C2.** The upload-candidate predicate as implemented accepts NO
URL at all: every URL that survives the scheme/host/extension/
author-avatar checks reaches `re.findall`, and `re` is not imported,
so `NameError` is raised and swallowed into False.  The spec-modelled
filter (the intended behaviour) accepts the plain image URL and the
`?w=500` variant, rejects the `?w=50` variant and tracking hosts —
so code and spec diverge at `https://example.com/photo.jpg?w=500`. -/
theorem is_valid_upload_candidate_constantly_false :
    (∀ url : String, is_valid_upload_candidate url = false) ∧
    is_valid_upload_candidate "https://example.com/photo.jpg?w=500" = false ∧
    is_valid_upload_candidate_spec "https://example.com/photo.jpg?w=500" = true ∧
    is_valid_upload_candidate_spec "https://example.com/photo.jpg?w=50" = false ∧
    is_valid_upload_candidate_spec "https://sb.scorecardresearch.com/photo.jpg?w=500" = false ∧
    is_valid_upload_candidate_spec "https://example.com/photo.jpg" = true := by
  refine ⟨?_, by rfl, by rfl, by rfl, by rfl, by rfl⟩
  intro url
  unfold is_valid_upload_candidate
  split
  · rfl
  · rcases uploadCandidateTryBody_cases (lowerL url.data) with h | h <;> rw [h]

/-! ## C10: `add_internal_links` raises when the parse has no body -/

/-- **C10.** With non-empty HTML and a non-empty catalog, whenever the
`html.parser` parse yields no `<body>` element (as for fragments such
as `<p>text</p>`), `add_internal_links` raises `AttributeError` from
dereferencing `soup.body` instead of returning. -/
theorem add_internal_links_no_body_raises (pilar : List String)
    (parse : String → Option (List TextNode)) (html : String)
    (posts : List LinkEntry) (cats : List Nat) (maxLinks : Nat)
    (h1 : html.data ≠ []) (h2 : posts ≠ []) (h3 : parse html = none) :
    add_internal_links pilar parse html posts cats maxLinks = .attrError := by
  unfold add_internal_links
  rw [if_neg (by simp [h1, h2]), h3]

/-- Witness for C10 at a concrete fragment input. -/
theorem add_internal_links_no_body_raises_witness :
    "<p>texto</p>".data ≠ [] ∧ [teamXEntry] ≠ [] ∧
    add_internal_links [] (fun _ => none) "<p>texto</p>" [teamXEntry] [] 6 =
      .attrError :=
  ⟨by decide, by decide,
   add_internal_links_no_body_raises [] (fun _ => none) "<p>texto</p>"
     [teamXEntry] [] 6 (by decide) (by decide) rfl⟩

/-! ## C3: pillar tier beats title length (claim corrected) -/

/-- **C3 (counterexample).** With catalog entry A (pillar, "Team X"),
entry B (same-category, "Team X Rivalry") and a body mentioning
"Team X Rivalry" exactly once, `add_internal_links` links the SHORTER
pillar title A, not the longer title B: the claim that the longer
title B is linked is false. -/
theorem pillar_beats_length_counterexample :
    add_internal_links ["https://site.example/pilar-team-x"]
        (fun _ => some [rivalryNode]) "<p>Sobre Team X Rivalry hoje</p>"
        [teamXEntry, teamXRivalryEntry] [7] 6 =
      .transformed
        [⟨["p", "body"],
          ("Sobre <a href=\"https://site.example/pilar-team-x\">Team X</a>" ++
            " Rivalry hoje").data,
          some teamXEntry⟩] ∧
    teamXEntry ≠ teamXRivalryEntry := by
  exact ⟨by rfl, by decide⟩

/-- Helper: under an oracle whose primary-model attempt always fails
with an unexpected (non-quota, non-permission, non-not-found) error,
the key loop attempts exactly the primary model once per remaining
key, never reaches the fallback model, and falls through to the
failure return. -/
theorem rewriteKeysLoop_all_unexpected (oracle : Nat → String → AttemptOutcome)
    (numKeys : Nat) (p f : String) (h : ∀ k, oracle k p = .unexpectedErr) :
    ∀ ks cur, rewriteKeysLoop oracle numKeys [p, f] ks cur =
      ⟨ks.map (fun k => (k, p)), .allFailed, ks.getLastD cur⟩ := by
  intro ks
  induction ks with
  | nil => intro cur; rfl
  | cons k ks ih =>
    intro cur
    have hstep : tryModelsForKey oracle k [p, f] = ([(k, p)], .brokeOut) := by
      simp [tryModelsForKey, h k]
    rw [show (k :: ks).getLastD cur = ks.getLastD k from by cases ks <;> rfl]
    simp [rewriteKeysLoop, hstep, ih k]

/-- Helper: under an oracle where every attempt hits a quota error,
the key loop attempts primary then fallback for each remaining key in
order and falls through to the failure return. -/
theorem rewriteKeysLoop_all_quota (oracle : Nat → String → AttemptOutcome)
    (numKeys : Nat) (p f : String) (h : ∀ k m, oracle k m = .quotaExhausted) :
    ∀ ks cur, rewriteKeysLoop oracle numKeys [p, f] ks cur =
      ⟨ks.flatMap (fun k => [(k, p), (k, f)]), .allFailed, ks.getLastD cur⟩ := by
  intro ks
  induction ks with
  | nil => intro cur; rfl
  | cons k ks ih =>
    intro cur
    have hstep : tryModelsForKey oracle k [p, f] =
        ([(k, p), (k, f)], .exhaustedModels) := by
      simp [tryModelsForKey, h k p, h k f]
    rw [show (k :: ks).getLastD cur = ks.getLastD k from by cases ks <;> rfl]
    simp [rewriteKeysLoop, hstep, ih k]

/-- **C4 (counterexample).** With two credentials and a transport that
always fails with an unexpected error, `rewrite_content` does NOT stop
at the first credential: after aborting the model loop for key 0 it
retries on credential 1 (the attempt `(1, primary)` is made), and the
call returns a failure value (`(None, reason)`) rather than
propagating an exception — refuting "no automatic retry on other
credentials". -/
theorem rewrite_unexpected_error_counterexample :
    rewrite_content_run (fun _ _ => .unexpectedErr) 2
        "model-primary" "model-fallback" 0 =
      ⟨[(0, "model-primary"), (1, "model-primary")], .allFailed, 1⟩ ∧
    (1, "model-primary") ∈
      (rewrite_content_run (fun _ _ => .unexpectedErr) 2
        "model-primary" "model-fallback" 0).attempts := by
  exact ⟨rfl, by simp [rewrite_content_run, rewriteKeysLoop, tryModelsForKey]⟩

/-- **C4 (amended).** When the text-generation invocation fails with an
error that is not a quota, permission, or not-found signal, the model
loop for the current credential is aborted immediately (the fallback
model is not tried for that credential), but the controller then
advances to the next credential and retries; if every credential fails
the same way, `rewrite_content` returns a failure result
`(None, reason)` instead of raising.  Formally: under an oracle whose
primary attempt always raises an unexpected error, the attempt trace is
exactly one primary-model attempt per credential from the starting
index to the end of the pool, with no fallback attempts, and the
outcome is the fallthrough failure. -/
theorem rewrite_unexpected_error_behaviour (oracle : Nat → String → AttemptOutcome)
    (numKeys start : Nat) (p f : String)
    (h : ∀ k, oracle k p = .unexpectedErr) :
    rewrite_content_run oracle numKeys p f start =
      ⟨(List.range' start (numKeys - start)).map (fun k => (k, p)),
       .allFailed,
       (List.range' start (numKeys - start)).getLastD start⟩ := by
  unfold rewrite_content_run
  exact rewriteKeysLoop_all_unexpected oracle numKeys p f h _ start

/-- Witness for C4 (amended) at a concrete two-credential pool. -/
theorem rewrite_unexpected_error_behaviour_witness :
    rewrite_content_run (fun _ _ => .unexpectedErr) 2 "mp" "mf" 0 =
      ⟨[(0, "mp"), (1, "mp")], .allFailed, 1⟩ :=
  rewrite_unexpected_error_behaviour (fun _ _ => .unexpectedErr) 2 0 "mp" "mf"
    (fun _ => rfl)

/-- **C5.** Credential-index cycling: (1) `_failover_to_next_key`
advances the process-wide index by exactly one position modulo the
pool size (wrapping to 0 when the pool is exhausted); (2) a rewrite
success at the current credential advances the index by one (mod K)
even though the result stands; (3) under consecutive quota failures
over a pool of size K starting at index 0, the loop attempts both
models on credential 0, then 1, …, then K-1: every credential index is
visited exactly once (as one contiguous block of its two model
attempts) before the loop gives up, never revisiting an earlier
index. -/
theorem credential_index_cycling (numKeys : Nat) (p f : String)
    (oracle : Nat → String → AttemptOutcome)
    (hq : ∀ k m, oracle k m = .quotaExhausted) :
    (∀ i, i < numKeys → failover_to_next_key numKeys i = (i + 1) % numKeys) ∧
    (∀ oracleS : Nat → String → AttemptOutcome, ∀ start, start < numKeys →
      oracleS start p = .parsedOk →
      rewrite_content_run oracleS numKeys p f start =
        ⟨[(start, p)], .success start, (start + 1) % numKeys⟩) ∧
    (rewrite_content_run oracle numKeys p f 0).attempts =
      (List.range numKeys).flatMap (fun k => [(k, p), (k, f)]) ∧
    ((rewrite_content_run oracle numKeys p f 0).attempts.map Prod.fst) =
      (List.range numKeys).flatMap (fun k => [k, k]) ∧
    (rewrite_content_run oracle numKeys p f 0).outcome = .allFailed := by
  have hfail : ∀ i, i < numKeys →
      failover_to_next_key numKeys i = (i + 1) % numKeys := by
    intro i hi
    unfold failover_to_next_key
    split
    · exact (Nat.mod_eq_of_lt (by assumption)).symm
    · have : i + 1 = numKeys := by omega
      rw [this, Nat.mod_self]
  have hrun := rewriteKeysLoop_all_quota oracle numKeys p f hq
    (List.range numKeys) 0
  have hrange : List.range' 0 (numKeys - 0) = List.range numKeys := by
    rw [Nat.sub_zero, List.range_eq_range']
  refine ⟨hfail, ?_, ?_, ?_, ?_⟩
  · intro oracleS start hstart hok
    unfold rewrite_content_run
    obtain ⟨n, hn⟩ : ∃ n, numKeys - start = n + 1 := ⟨numKeys - start - 1, by omega⟩
    rw [hn]
    have hstep : tryModelsForKey oracleS start [p, f] =
        ([(start, p)], .success) := by
      simp [tryModelsForKey, hok]
    simp [List.range', rewriteKeysLoop, hstep, hfail start hstart]
  · unfold rewrite_content_run
    rw [hrange, hrun]
  · unfold rewrite_content_run
    rw [hrange, hrun]
    simp [List.map_flatMap]
  · unfold rewrite_content_run
    rw [hrange, hrun]

/-- Witness for C5 with a pool of three credentials. -/
theorem credential_index_cycling_witness :
    failover_to_next_key 3 2 = 0 ∧
    rewrite_content_run (fun _ _ => .parsedOk) 3 "mp" "mf" 1 =
      ⟨[(1, "mp")], .success 1, 2⟩ ∧
    (rewrite_content_run (fun _ _ => .quotaExhausted) 3 "mp" "mf" 0).attempts =
      [(0, "mp"), (0, "mf"), (1, "mp"), (1, "mf"), (2, "mp"), (2, "mf")] ∧
    (rewrite_content_run (fun _ _ => .quotaExhausted) 3 "mp" "mf" 0).outcome =
      .allFailed := by
  have h := credential_index_cycling 3 "mp" "mf" (fun _ _ => .quotaExhausted)
    (fun _ _ => rfl)
  exact ⟨h.1 2 (by omega), h.2.1 (fun _ _ => .parsedOk) 1 (by omega) rfl,
    h.2.2.1, h.2.2.2.2⟩

/-- **C3 (amended).** In the same scenario the tie is broken by TIER,
not by length: the prioritised list places the pillar entry A before
the same-category entry B (descending-length ordering applies only
within a tier), and `add_internal_links` therefore links A, leaving
B's URL unused. -/
theorem pillar_beats_length_amended :
    prioritizeOptions ["https://site.example/pilar-team-x"]
        [teamXEntry, teamXRivalryEntry] [7] = [teamXEntry, teamXRivalryEntry] ∧
    (match add_internal_links ["https://site.example/pilar-team-x"]
        (fun _ => some [rivalryNode]) "<p>Sobre Team X Rivalry hoje</p>"
        [teamXEntry, teamXRivalryEntry] [7] 6 with
     | .transformed nodes => nodes.map ProcNode.linked
     | _ => []) = [some teamXEntry] := by
  exact ⟨by decide, by rfl⟩

/-! ## C6: response validation -/

/-- **C6.** For any parsed object without an explicit `erro` field:
(1) missing any of the six required top-level keys makes
`_parse_response` return None (`FormatInvalid`); (2) a `yoast_meta`
value that is not an object makes it return None; (3) a `yoast_meta`
object missing any of the four required sub-keys makes it return None
even when all top-level keys are present. -/
theorem validate_response_rejects_missing_keys
    (fields : List (String × JVal)) (herr : hasKey fields "erro" = false) :
    ((∃ k, k ∈ requiredKeys ∧ hasKey fields k = false) →
      validate_response (.jobj fields) = none) ∧
    (∀ v, lookupKey fields "yoast_meta" = some v →
      (∀ yf, v ≠ .jobj yf) → validate_response (.jobj fields) = none) ∧
    (∀ yf, lookupKey fields "yoast_meta" = some (.jobj yf) →
      (∃ k, k ∈ requiredYoastKeys ∧ hasKey yf k = false) →
      validate_response (.jobj fields) = none) := by
  refine ⟨?_, ?_, ?_⟩
  · rintro ⟨k, hk, hmiss⟩
    unfold validate_response
    dsimp only
    split_ifs with he hf
    · exact absurd he (by simp [herr])
    · exact absurd
        ((by simpa using hf : ∀ a ∈ requiredKeys, hasKey fields a = true) k hk)
        (by simp [hmiss])
    · rfl
  · intro v hv hnobj
    unfold validate_response
    dsimp only
    split_ifs with he hf
    · exact absurd he (by simp [herr])
    · rw [hv]
      cases v with
      | jobj yf => exact absurd rfl (hnobj yf)
      | jstr s => rfl
      | jnum n => rfl
      | jbool b => rfl
      | jnull => rfl
      | jarr xs => rfl
    · rfl
  · rintro yf hv ⟨k, hk, hmiss⟩
    unfold validate_response
    dsimp only
    split_ifs with he hf
    · exact absurd he (by simp [herr])
    · rw [hv]
      dsimp only
      split_ifs with hy
      · exact absurd
          ((by simpa using hy : ∀ a ∈ requiredYoastKeys, hasKey yf a = true) k hk)
          (by simp [hmiss])
      · rfl
    · rfl

/-- Witness for C6: three concrete rejected objects — one missing the
`tags` key, one whose `yoast_meta` is a string, and one whose complete
top-level keys carry a `yoast_meta` object missing
`_yoast_news_keywords`. -/
theorem validate_response_rejects_missing_keys_witness :
    validate_response (.jobj [("titulo_final", .jstr "t")]) = none ∧
    validate_response (.jobj
      [("titulo_final", .jstr "t"), ("conteudo_final", .jstr "c"),
       ("meta_description", .jstr "m"), ("focus_keyword", .jstr "f"),
       ("tags", .jarr []), ("yoast_meta", .jstr "not-an-object")]) = none ∧
    validate_response (.jobj
      [("titulo_final", .jstr "t"), ("conteudo_final", .jstr "c"),
       ("meta_description", .jstr "m"), ("focus_keyword", .jstr "f"),
       ("tags", .jarr []),
       ("yoast_meta", .jobj
         [("_yoast_wpseo_title", .jstr "st"),
          ("_yoast_wpseo_metadesc", .jstr "sd"),
          ("_yoast_wpseo_focuskw", .jstr "sk")])]) = none := by
  refine ⟨?_, ?_, ?_⟩
  · exact (validate_response_rejects_missing_keys _ (by rfl)).1
      ⟨"tags", by simp [requiredKeys], by rfl⟩
  · exact (validate_response_rejects_missing_keys _ (by rfl)).2.1
      (.jstr "not-an-object") (by rfl) (fun yf h => by cases h)
  · exact (validate_response_rejects_missing_keys _ (by rfl)).2.2
      _ (by rfl) ⟨"_yoast_news_keywords", by simp [requiredYoastKeys], by rfl⟩

/-! ## C7 and C8: link-insertion invariants -/

/-- Helper: the entry chosen by the inner catalog loop passed the
`used_urls` check, so its URL was not yet used. -/
theorem tryEntries_unused (used : List String) (text : List Char) :
    ∀ es e t, tryEntries used text es = some (e, t) →
      used.contains e.link = false := by
  intro es
  induction es with
  | nil => intro e t h; simp [tryEntries] at h
  | cons x xs ih =>
    intro e t h
    unfold tryEntries at h
    split_ifs at h with hc
    · exact ih e t h
    · cases hm : subFirstMatch x.title.data x.link.data none text with
      | none => rw [hm] at h; exact ih e t h
      | some t2 =>
        rw [hm] at h
        cases h
        simpa using hc

/-- Helper: the node loop never inserts more than the remaining link
budget, never reuses a URL already in `used_urls`, and never links the
same URL twice. -/
theorem processNodes_invariants (opts : List LinkEntry) (maxLinks : Nat) :
    ∀ ns st, countLinked (processNodes opts maxLinks st ns) ≤ maxLinks - st.inserted ∧
      (∀ u ∈ linkedUrls (processNodes opts maxLinks st ns), u ∉ st.used) ∧
      (linkedUrls (processNodes opts maxLinks st ns)).Nodup := by
  intro ns
  induction ns with
  | nil =>
    intro st
    exact ⟨by simp [processNodes, countLinked],
      by simp [processNodes, linkedUrls], by simp [processNodes, linkedUrls]⟩
  | cons n ns ih =>
    intro st
    unfold processNodes processNode
    dsimp only
    split_ifs with h1 h2
    · obtain ⟨ihc, ihu, ihn⟩ := ih st
      refine ⟨by simpa [countLinked] using ihc, ?_, ?_⟩
      · intro u hu
        exact ihu u (by simpa [linkedUrls] using hu)
      · simpa [linkedUrls] using ihn
    · obtain ⟨ihc, ihu, ihn⟩ := ih st
      refine ⟨by simpa [countLinked] using ihc, ?_, ?_⟩
      · intro u hu
        exact ihu u (by simpa [linkedUrls] using hu)
      · simpa [linkedUrls] using ihn
    · cases htry : tryEntries st.used n.text opts with
      | none =>
        obtain ⟨ihc, ihu, ihn⟩ := ih st
        dsimp only
        refine ⟨by simpa [countLinked] using ihc, ?_, ?_⟩
        · intro u hu
          exact ihu u (by simpa [linkedUrls] using hu)
        · simpa [linkedUrls] using ihn
      | some et =>
        obtain ⟨e2, t2⟩ := et
        dsimp only
        obtain ⟨ihc, ihu, ihn⟩ := ih ⟨st.inserted + 1, e2.link :: st.used⟩
        have hnotmem : e2.link ∉ st.used := by
          simpa using tryEntries_unused st.used n.text opts e2 t2 htry
        have hnotrest : e2.link ∉
            linkedUrls (processNodes opts maxLinks
              ⟨st.inserted + 1, e2.link :: st.used⟩ ns) := by
          intro hmem
          exact (ihu e2.link hmem) (List.mem_cons_self e2.link st.used)
        refine ⟨?_, ?_, ?_⟩
        · have hrest := ihc
          simp only [not_le] at h1
          simp only [countLinked, List.filterMap_cons] at hrest ⊢
          simp only [List.length_cons]
          omega
        · intro u hu
          simp only [linkedUrls, List.filterMap_cons] at hu
          rcases List.mem_cons.mp hu with h | h
          · exact h ▸ hnotmem
          · intro hmem
            exact (ihu u h) (List.mem_cons_of_mem _ hmem)
        · simp only [linkedUrls, List.filterMap_cons]
          exact List.Nodup.cons hnotrest ihn

/-- Helper: the node loop returns one processed node per input node,
and leaves every node under an excluded ancestor untouched (text
unchanged, no link inserted). -/
theorem processNodes_excluded_untouched (opts : List LinkEntry) (maxLinks : Nat) :
    ∀ ns st, (processNodes opts maxLinks st ns).length = ns.length ∧
      ∀ p ∈ ns.zip (processNodes opts maxLinks st ns),
        excludedNode p.1 = true → p.2.text = p.1.text ∧ p.2.linked = none := by
  intro ns
  induction ns with
  | nil => intro st; exact ⟨rfl, by simp [processNodes]⟩
  | cons n ns ih =>
    intro st
    unfold processNodes processNode
    dsimp only
    split_ifs with h1 h2
    · obtain ⟨ihl, ihz⟩ := ih st
      refine ⟨by simpa using ihl, ?_⟩
      intro p hp hex
      rcases List.mem_cons.mp hp with h | h
      · rw [h]; exact ⟨rfl, rfl⟩
      · exact ihz p h hex
    · obtain ⟨ihl, ihz⟩ := ih st
      refine ⟨by simpa using ihl, ?_⟩
      intro p hp hex
      rcases List.mem_cons.mp hp with h | h
      · rw [h]; exact ⟨rfl, rfl⟩
      · exact ihz p h hex
    · cases htry : tryEntries st.used n.text opts with
      | none =>
        obtain ⟨ihl, ihz⟩ := ih st
        dsimp only
        refine ⟨by simpa using ihl, ?_⟩
        intro p hp hex
        rcases List.mem_cons.mp hp with h | h
        · rw [h]; exact ⟨rfl, rfl⟩
        · exact ihz p h hex
      | some et =>
        obtain ⟨e2, t2⟩ := et
        dsimp only
        obtain ⟨ihl, ihz⟩ := ih ⟨st.inserted + 1, e2.link :: st.used⟩
        refine ⟨by simpa using ihl, ?_⟩
        intro p hp hex
        rcases List.mem_cons.mp hp with h | h
        · rw [h] at hex
          exact absurd hex h2
        · exact ihz p h hex

/-- Helper: inverting a `.transformed` result of `add_internal_links`
recovers the parsed nodes it was computed from. -/
theorem add_internal_links_transformed_inv (pilar : List String)
    (parse : String → Option (List TextNode)) (html : String)
    (posts : List LinkEntry) (cats : List Nat) (maxLinks : Nat)
    (ins : List TextNode) (nodes : List ProcNode)
    (hp : parse html = some ins)
    (ht : add_internal_links pilar parse html posts cats maxLinks =
      .transformed nodes) :
    nodes = processNodes (prioritizeOptions pilar posts cats) maxLinks
      ⟨0, []⟩ ins := by
  unfold add_internal_links at ht
  split_ifs at ht
  rw [hp] at ht
  cases ht
  rfl

/-- **C7.** For every body, catalog, category set and `maxLinks`,
`add_internal_links` inserts at most `maxLinks` anchors and links each
catalog URL at most once per body (by construction it inserts at most
one anchor per text region, replacing exactly one occurrence, and
stops trying further entries on a region once one matches).  In
particular, with `maxLinks = 2` and five catalog entries each matching
one of five text regions, exactly 2 anchors are inserted and the other
3 matching regions are left untouched. -/
theorem insertLinks_maxLinks_and_url_uniqueness :
    (∀ (pilar : List String) (parse : String → Option (List TextNode))
       (html : String) (posts : List LinkEntry) (cats : List Nat)
       (maxLinks : Nat) (nodes : List ProcNode),
       add_internal_links pilar parse html posts cats maxLinks =
         .transformed nodes →
       countLinked nodes ≤ maxLinks ∧ (linkedUrls nodes).Nodup) ∧
    add_internal_links [] (fun _ => some fiveNodes) "<p>x</p>" fiveEntries [] 2 =
      .transformed
        [⟨["p", "body"],
          "fala de <a href=\"https://s.example/alpha\">Alpha</a> aqui".data,
          some ⟨"Alpha", "https://s.example/alpha", []⟩⟩,
         ⟨["p", "body"],
          "fala de <a href=\"https://s.example/bravo\">Bravo</a> aqui".data,
          some ⟨"Bravo", "https://s.example/bravo", []⟩⟩,
         ⟨["p", "body"], "fala de Charlie aqui".data, none⟩,
         ⟨["p", "body"], "fala de Delta aqui".data, none⟩,
         ⟨["p", "body"], "fala de Echo aqui".data, none⟩] ∧
    countLinked
        [⟨["p", "body"],
          "fala de <a href=\"https://s.example/alpha\">Alpha</a> aqui".data,
          some ⟨"Alpha", "https://s.example/alpha", []⟩⟩,
         ⟨["p", "body"],
          "fala de <a href=\"https://s.example/bravo\">Bravo</a> aqui".data,
          some ⟨"Bravo", "https://s.example/bravo", []⟩⟩,
         ⟨["p", "body"], "fala de Charlie aqui".data, none⟩,
         ⟨["p", "body"], "fala de Delta aqui".data, none⟩,
         ⟨["p", "body"], "fala de Echo aqui".data, none⟩] = 2 := by
  refine ⟨?_, by rfl, by rfl⟩
  intro pilar parse html posts cats maxLinks nodes ht
  have hres : ∃ ins, parse html = some ins := by
    unfold add_internal_links at ht
    split_ifs at ht
    cases hp : parse html with
    | none => rw [hp] at ht; cases ht
    | some ins => exact ⟨ins, rfl⟩
  obtain ⟨ins, hp⟩ := hres
  have hnodes := add_internal_links_transformed_inv pilar parse html posts cats
    maxLinks ins nodes hp ht
  subst hnodes
  obtain ⟨hc, _, hn⟩ := processNodes_invariants
    (prioritizeOptions pilar posts cats) maxLinks ins ⟨0, []⟩
  exact ⟨le_trans hc (by omega), hn⟩

/-- Witness for C7's universal part at the concrete five-entry run. -/
theorem insertLinks_maxLinks_and_url_uniqueness_witness :
    countLinked
        [⟨["p", "body"],
          "fala de <a href=\"https://s.example/alpha\">Alpha</a> aqui".data,
          some ⟨"Alpha", "https://s.example/alpha", []⟩⟩,
         ⟨["p", "body"],
          "fala de <a href=\"https://s.example/bravo\">Bravo</a> aqui".data,
          some ⟨"Bravo", "https://s.example/bravo", []⟩⟩,
         ⟨["p", "body"], "fala de Charlie aqui".data, none⟩,
         ⟨["p", "body"], "fala de Delta aqui".data, none⟩,
         ⟨["p", "body"], "fala de Echo aqui".data, none⟩] ≤ 2 ∧
    (linkedUrls
        [⟨["p", "body"],
          "fala de <a href=\"https://s.example/alpha\">Alpha</a> aqui".data,
          some ⟨"Alpha", "https://s.example/alpha", []⟩⟩,
         ⟨["p", "body"],
          "fala de <a href=\"https://s.example/bravo\">Bravo</a> aqui".data,
          some ⟨"Bravo", "https://s.example/bravo", []⟩⟩,
         ⟨["p", "body"], "fala de Charlie aqui".data, none⟩,
         ⟨["p", "body"], "fala de Delta aqui".data, none⟩,
         ⟨["p", "body"], "fala de Echo aqui".data, none⟩]).Nodup :=
  insertLinks_maxLinks_and_url_uniqueness.1 [] (fun _ => some fiveNodes)
    "<p>x</p>" fiveEntries [] 2 _ insertLinks_maxLinks_and_url_uniqueness.2.1

/-- **C8.** For every body, catalog and category set, a text region
nested (at any ancestor level) inside an anchor, heading, quote, code
or figure/caption element is skipped entirely: its text is unchanged
and no anchor is inserted into it. -/
theorem insertLinks_skips_excluded_regions (pilar : List String)
    (parse : String → Option (List TextNode)) (html : String)
    (posts : List LinkEntry) (cats : List Nat) (maxLinks : Nat)
    (ins : List TextNode) (nodes : List ProcNode)
    (hp : parse html = some ins)
    (ht : add_internal_links pilar parse html posts cats maxLinks =
      .transformed nodes) :
    nodes.length = ins.length ∧
    ∀ p ∈ ins.zip nodes, excludedNode p.1 = true →
      p.2.text = p.1.text ∧ p.2.linked = none := by
  have hnodes := add_internal_links_transformed_inv pilar parse html posts cats
    maxLinks ins nodes hp ht
  subst hnodes
  exact processNodes_excluded_untouched
    (prioritizeOptions pilar posts cats) maxLinks ins ⟨0, []⟩

/-- Witness for C8: a body whose first region sits inside an `<h2>`
and matches the catalog entry; the region is left untouched while the
non-excluded second region receives the anchor. -/
theorem insertLinks_skips_excluded_regions_witness :
    [(⟨["h2", "body"], "Sobre Alpha".data⟩ : TextNode),
     ⟨["p", "body"], "Sobre Alpha".data⟩].zip
      [(⟨["h2", "body"], "Sobre Alpha".data, none⟩ : ProcNode),
       ⟨["p", "body"],
        "Sobre <a href=\"https://s.example/alpha\">Alpha</a>".data,
        some ⟨"Alpha", "https://s.example/alpha", []⟩⟩] ≠ [] ∧
    ([(⟨["h2", "body"], "Sobre Alpha".data, none⟩ : ProcNode),
      ⟨["p", "body"],
       "Sobre <a href=\"https://s.example/alpha\">Alpha</a>".data,
       some ⟨"Alpha", "https://s.example/alpha", []⟩⟩]).length = 2 ∧
    ∀ p ∈ [(⟨["h2", "body"], "Sobre Alpha".data⟩ : TextNode),
           ⟨["p", "body"], "Sobre Alpha".data⟩].zip
        [(⟨["h2", "body"], "Sobre Alpha".data, none⟩ : ProcNode),
         ⟨["p", "body"],
          "Sobre <a href=\"https://s.example/alpha\">Alpha</a>".data,
          some ⟨"Alpha", "https://s.example/alpha", []⟩⟩],
      excludedNode p.1 = true → p.2.text = p.1.text ∧ p.2.linked = none := by
  refine ⟨by decide, by decide, ?_⟩
  exact (insertLinks_skips_excluded_regions []
    (fun _ => some [⟨["h2", "body"], "Sobre Alpha".data⟩,
      ⟨["p", "body"], "Sobre Alpha".data⟩])
    "<p>x</p>" [⟨"Alpha", "https://s.example/alpha", []⟩] [] 6
    [⟨["h2", "body"], "Sobre Alpha".data⟩, ⟨["p", "body"], "Sobre Alpha".data⟩]
    [⟨["h2", "body"], "Sobre Alpha".data, none⟩,
     ⟨["p", "body"],
      "Sobre <a href=\"https://s.example/alpha\">Alpha</a>".data,
      some ⟨"Alpha", "https://s.example/alpha", []⟩⟩]
    rfl rfl).2

/-! ## C9: template substitution -/

/-- Helper: `String.mk` is injective. -/
theorem string_data_inj {a b : String} (h : a.data = b.data) : a = b := by
  cases a; cases b; exact congrArg String.mk h

/-- Helper: unfolding of the occurrence test on a cons cell. -/
theorem occursInB_cons (pat : List Char) (c : Char) (s : List Char) :
    occursInB pat (c :: s) = (pat.isPrefixOf (c :: s) || occursInB pat s) := rfl

/-- Helper: a brace-free character is not changed by escaping. -/
theorem braceFree_cons {c : Char} {s : List Char} (h : braceFree (c :: s) = true) :
    ¬(c = obrace ∨ c = cbrace) ∧ braceFree s = true := by
  simp only [braceFree, List.all_cons, Bool.and_eq_true] at h
  refine ⟨?_, h.2⟩
  have := h.1
  simpa using this

/-- Helper: unfolding of one `str.replace` scan step. -/
theorem replaceAllAux_cons (p : Char) (ps rep : List Char) (c : Char) (s : List Char) :
    replaceAllAux p ps rep (c :: s) =
      if (p :: ps).isPrefixOf (c :: s) then
        rep ++ replaceAllAux p ps rep (s.drop ps.length)
      else c :: replaceAllAux p ps rep s := by
  rw [replaceAllAux.eq_def]

/-- Helper: `str.replace` of the empty string. -/
theorem replaceAllAux_nil (p : Char) (ps rep : List Char) :
    replaceAllAux p ps rep [] = [] := by
  rw [replaceAllAux.eq_def]

/-- Helper: one scan step of a single-character `str.replace`. -/
theorem replaceAllAux_single_cons (x : Char) (rep : List Char) (c : Char)
    (s : List Char) :
    replaceAllAux x [] rep (c :: s) =
      if c = x then rep ++ replaceAllAux x [] rep s
      else c :: replaceAllAux x [] rep s := by
  rw [replaceAllAux_cons]
  have hpre : ([x].isPrefixOf (c :: s)) = (x == c) := by
    simp [List.isPrefixOf]
  by_cases h : c = x
  · subst h
    rw [if_pos (by simp [hpre]), if_pos rfl]
    simp
  · rw [if_neg (by simp [hpre, Ne.symm h]), if_neg h]

/-- Helper: escaping distributes over append. -/
theorem escapeDouble_append (a b : List Char) :
    escapeDouble (a ++ b) = escapeDouble a ++ escapeDouble b := by
  induction a with
  | nil => rfl
  | cons c a ih =>
    simp only [List.cons_append, escapeDouble]
    split_ifs with h
    · simp [ih]
    · simp [ih]

/-- Helper: escaping is the identity on brace-free text. -/
theorem escapeDouble_braceFree {a : List Char} (h : braceFree a = true) :
    escapeDouble a = a := by
  induction a with
  | nil => rfl
  | cons c a ih =>
    obtain ⟨hc, ha⟩ := braceFree_cons h
    simp only [escapeDouble, if_neg hc]
    rw [ih ha]

/-- Helper: the two escaping `str.replace` passes of
`_safe_format_prompt` together double every brace. -/
theorem escape_via_replace (t : List Char) :
    replaceAll [cbrace] [cbrace, cbrace]
      (replaceAll [obrace] [obrace, obrace] t) = escapeDouble t := by
  induction t with
  | nil => simp [replaceAll, replaceAllAux_nil, escapeDouble]
  | cons c t ih =>
    simp only [replaceAll] at ih ⊢
    rw [replaceAllAux_single_cons]
    by_cases hob : c = obrace
    · subst hob
      rw [if_pos rfl]
      show replaceAllAux cbrace [] [cbrace, cbrace]
          (obrace :: obrace :: replaceAllAux obrace [] [obrace, obrace] t) = _
      rw [replaceAllAux_single_cons, if_neg (by decide),
        replaceAllAux_single_cons, if_neg (by decide), ih]
      simp [escapeDouble]
    · rw [if_neg hob, replaceAllAux_single_cons]
      by_cases hcb : c = cbrace
      · subst hcb
        rw [if_pos rfl, ih]
        simp [escapeDouble]
      · rw [if_neg hcb, ih]
        simp [escapeDouble, hob, hcb]

/-- Helper: a pattern starting with a character absent from `u` cannot
occur while scanning `u`; occurrences live entirely in the tail. -/
theorem occursInB_head_skip {x c : Char} (q : List Char) (s : List Char)
    (h : c ≠ x) : occursInB (x :: q) (c :: s) = occursInB (x :: q) s := by
  rw [occursInB_cons]
  have : (x :: q).isPrefixOf (c :: s) = false := by
    rw [Bool.eq_false_iff]
    intro hp
    rcases (List.cons_prefix_cons.mp (List.isPrefixOf_iff_prefix.mp hp)) with ⟨hxc, _⟩
    exact h hxc.symm
  rw [this, Bool.false_or]

/-- Helper: scanning over a segment that lacks the pattern's head
character changes nothing. -/
theorem occursInB_append_skip {x : Char} (q : List Char) {u : List Char}
    (s : List Char) (h : ∀ c ∈ u, c ≠ x) :
    occursInB (x :: q) (u ++ s) = occursInB (x :: q) s := by
  induction u with
  | nil => rfl
  | cons c u ih =>
    rw [List.cons_append,
      occursInB_head_skip q (u ++ s) (h c (List.mem_cons_self c u))]
    exact ih (fun d hd => h d (List.mem_cons_of_mem c hd))

/-- Helper: a string with no occurrence of the pattern's head character
contains no occurrence of the pattern at all. -/
theorem occursInB_headless {x : Char} (q : List Char) {u : List Char}
    (h : ∀ c ∈ u, c ≠ x) : occursInB (x :: q) u = false := by
  have := occursInB_append_skip q ([] : List Char) h
  rw [List.append_nil] at this
  rw [this]
  rfl

/-- Helper: `str.replace` is the identity when the pattern does not
occur. -/
theorem replaceAllAux_no_occur (p : Char) (ps rep : List Char) :
    ∀ s, occursInB (p :: ps) s = false → replaceAllAux p ps rep s = s := by
  intro s
  induction s with
  | nil => intro _; exact replaceAllAux_nil p ps rep
  | cons c s ih =>
    intro h
    rw [occursInB_cons, Bool.or_eq_false_iff] at h
    rw [replaceAllAux_cons, if_neg (by simp [h.1]), ih h.2]

/-- Helper: `str.replace` passes over a segment lacking the pattern's
head character. -/
theorem replaceAllAux_append_skip (p : Char) (ps rep : List Char)
    {u : List Char} (s : List Char) (h : ∀ c ∈ u, c ≠ p) :
    replaceAllAux p ps rep (u ++ s) = u ++ replaceAllAux p ps rep s := by
  induction u with
  | nil => rfl
  | cons c u ih =>
    rw [List.cons_append, replaceAllAux_cons]
    have hpre : ((p :: ps).isPrefixOf (c :: (u ++ s))) = false := by
      rw [Bool.eq_false_iff]
      intro hp
      rcases (List.cons_prefix_cons.mp (List.isPrefixOf_iff_prefix.mp hp)) with ⟨hxc, _⟩
      exact h c (List.mem_cons_self c u) hxc.symm
    rw [if_neg (by simp [hpre]), ih (fun d hd => h d (List.mem_cons_of_mem c hd)),
      List.cons_append]

/-- Helper: `format_map` undoes the brace doubling, recovering the
original text. -/
theorem formatMapGo_escape (fields : List (String × String)) :
    ∀ t, formatMapGo fields .text (escapeDouble t) = some t := by
  intro t
  induction t with
  | nil => rfl
  | cons c t ih =>
    by_cases hob : c = obrace
    · subst hob
      rw [show escapeDouble (obrace :: t) = obrace :: obrace :: escapeDouble t
          from by simp [escapeDouble]]
      simp [formatMapGo, ih]
    · by_cases hcb : c = cbrace
      · subst hcb
        rw [show escapeDouble (cbrace :: t) = cbrace :: cbrace :: escapeDouble t
            from by simp [escapeDouble]]
        simp [formatMapGo, ih, show cbrace ≠ obrace from by decide]
      · rw [show escapeDouble (c :: t) = c :: escapeDouble t
            from by simp [escapeDouble, hob, hcb]]
        simp [formatMapGo, ih, hob, hcb]

/-- Helper: an escaped string starting with an opening brace comes from
an original starting with an opening brace, and the brace is doubled. -/
theorem escapeDouble_obr_cons {u rest : List Char}
    (h : escapeDouble u = obrace :: rest) :
    ∃ u2, u = obrace :: u2 ∧ rest = obrace :: escapeDouble u2 := by
  cases u with
  | nil => cases h
  | cons c u2 =>
    by_cases hb : c = obrace ∨ c = cbrace
    · rw [show escapeDouble (c :: u2) = c :: c :: escapeDouble u2
          from by simp [escapeDouble, hb]] at h
      rcases List.cons_eq_cons.mp h with ⟨hc, htail⟩
      subst hc
      exact ⟨u2, rfl, htail.symm⟩
    · rw [show escapeDouble (c :: u2) = c :: escapeDouble u2
          from by simp [escapeDouble, hb]] at h
      rcases List.cons_eq_cons.mp h with ⟨hc, _⟩
      exact absurd (Or.inl hc) hb

/-- Helper: if a brace-free key followed by two closing braces is a
prefix of an escaped string, the original string begins with the key
followed by a single closing brace. -/
theorem escaped_key_prefix :
    ∀ (k : List Char), braceFree k = true →
    ∀ u, (k ++ [cbrace, cbrace]).isPrefixOf (escapeDouble u) = true →
    ∃ u2, u = k ++ cbrace :: u2 := by
  intro k
  induction k with
  | nil =>
    intro _ u h
    cases u with
    | nil => cases h
    | cons c u2 =>
      by_cases hb : c = obrace ∨ c = cbrace
      · rcases hb with hb | hb
        · subst hb
          rw [show escapeDouble (obrace :: u2) = obrace :: obrace :: escapeDouble u2
              from by simp [escapeDouble]] at h
          rcases List.cons_prefix_cons.mp (List.isPrefixOf_iff_prefix.mp h) with ⟨hc, _⟩
          exact absurd hc (by decide)
        · subst hb
          exact ⟨u2, rfl⟩
      · rw [show escapeDouble (c :: u2) = c :: escapeDouble u2
            from by simp [escapeDouble, hb]] at h
        rcases List.cons_prefix_cons.mp (List.isPrefixOf_iff_prefix.mp h) with ⟨hc, _⟩
        exact absurd (Or.inr hc.symm) hb
  | cons kc kr ih =>
    intro hbf u h
    obtain ⟨hkc, hkr⟩ := braceFree_cons hbf
    cases u with
    | nil => cases h
    | cons c u2 =>
      by_cases hb : c = obrace ∨ c = cbrace
      · rw [show escapeDouble (c :: u2) = c :: c :: escapeDouble u2
            from by simp [escapeDouble, hb]] at h
        rcases List.cons_prefix_cons.mp (List.isPrefixOf_iff_prefix.mp h) with ⟨hc, _⟩
        exact absurd (hc ▸ hb) hkc
      · rw [show escapeDouble (c :: u2) = c :: escapeDouble u2
            from by simp [escapeDouble, hb]] at h
        rcases List.cons_prefix_cons.mp (List.isPrefixOf_iff_prefix.mp h) with ⟨hc, htail⟩
        obtain ⟨u3, hu3⟩ := ih hkr u2 (List.isPrefixOf_iff_prefix.mpr htail)
        exact ⟨u3, by rw [hu3, hc, List.cons_append]⟩

/-- Helper: if the doubled form of a placeholder occurs in the escaped
template, the single-brace placeholder occurs in the original
template.  (Contrapositive: escaping creates no spurious placeholder
occurrences.) -/
theorem occursInB_escaped_placeholder (k : List Char) (hne : k ≠ [])
    (hbf : braceFree k = true) :
    ∀ t, occursInB (obrace :: obrace :: (k ++ [cbrace, cbrace]))
        (escapeDouble t) = true →
      occursInB (obrace :: (k ++ [cbrace])) t = true := by
  intro t
  induction t with
  | nil =>
    intro h
    exact absurd h (by simp [escapeDouble, occursInB, List.isPrefixOf])
  | cons c t ih =>
    intro h
    by_cases hob : c = obrace
    · subst hob
      rw [show escapeDouble (obrace :: t) = obrace :: obrace :: escapeDouble t
          from by simp [escapeDouble]] at h
      rw [occursInB_cons, occursInB_cons] at h
      simp only [Bool.or_eq_true] at h
      rcases h with h | h | h
      · obtain ⟨_, hp1⟩ := List.cons_prefix_cons.mp (List.isPrefixOf_iff_prefix.mp h)
        obtain ⟨_, hp2⟩ := List.cons_prefix_cons.mp hp1
        obtain ⟨u2, hu⟩ := escaped_key_prefix k hbf t
          (List.isPrefixOf_iff_prefix.mpr hp2)
        rw [occursInB_cons, Bool.or_eq_true]
        left
        apply List.isPrefixOf_iff_prefix.mpr
        rw [List.cons_prefix_cons]
        refine ⟨rfl, ?_⟩
        rw [hu, List.append_cons k cbrace u2]
        exact List.prefix_append _ _
      · obtain ⟨_, hp1⟩ := List.cons_prefix_cons.mp (List.isPrefixOf_iff_prefix.mp h)
        obtain ⟨w, hw⟩ := hp1
        obtain ⟨t2, _, hrest⟩ := escapeDouble_obr_cons hw.symm
        cases k with
        | nil => exact absurd rfl hne
        | cons kc kr =>
          obtain ⟨hkc, _⟩ := braceFree_cons hbf
          have hrest2 : kc :: (kr ++ [cbrace, cbrace] ++ w) =
              obrace :: escapeDouble t2 := by simpa using hrest
          rcases List.cons_eq_cons.mp hrest2 with ⟨hkco, _⟩
          exact absurd (Or.inl hkco) hkc
      · rw [occursInB_cons, Bool.or_eq_true]
        right
        exact ih h
    · rw [occursInB_cons, Bool.or_eq_true]
      right
      apply ih
      by_cases hcb : c = cbrace
      · subst hcb
        rw [show escapeDouble (cbrace :: t) = cbrace :: cbrace :: escapeDouble t
            from by simp [escapeDouble]] at h
        rw [occursInB_head_skip _ _ (by decide),
          occursInB_head_skip _ _ (by decide)] at h
        exact h
      · rw [show escapeDouble (c :: t) = c :: escapeDouble t
            from by simp [escapeDouble, hob, hcb]] at h
        rw [occursInB_head_skip _ _ hob] at h
        exact h

/-- Helper: the un-escaping `str.replace` passes leave a string alone
when none of the doubled placeholder patterns occur in it. -/
theorem foldl_replace_id (fs : List (String × String)) :
    ∀ S : List Char,
    (∀ kv ∈ fs,
      occursInB (obrace :: obrace :: (kv.1.data ++ [cbrace, cbrace])) S = false) →
    fs.foldl
      (fun s kv =>
        replaceAll (obrace :: obrace :: (kv.1.data ++ [cbrace, cbrace]))
          (obrace :: (kv.1.data ++ [cbrace])) s) S = S := by
  induction fs with
  | nil => intro S _; rfl
  | cons kv fs ih =>
    intro S h
    rw [List.foldl_cons]
    rw [show replaceAll (obrace :: obrace :: (kv.1.data ++ [cbrace, cbrace]))
        (obrace :: (kv.1.data ++ [cbrace])) S = S from
      replaceAllAux_no_occur _ _ _ S (h kv (List.mem_cons_self kv fs))]
    exact ih S (fun x hx => h x (List.mem_cons_of_mem kv hx))

/-- Helper: splitting a `goodKey` hypothesis. -/
theorem goodKey_split {k : String} (h : goodKey k = true) :
    k.data ≠ [] ∧ braceFree k.data = true := by
  simp only [goodKey, Bool.and_eq_true] at h
  exact ⟨by simpa using h.1, h.2⟩

/-- Helper (part 1 of C9): when no recognised placeholder occurs in the
template, `_safe_format_prompt` returns the template verbatim — every
literal brace included. -/
theorem safe_format_passthrough (template : List Char)
    (fields : List (String × String))
    (hkeys : ∀ kv ∈ fields, goodKey kv.1 = true)
    (hnoocc : ∀ kv ∈ fields, occursInB (placeholderOf kv.1) template = false) :
    safe_format_prompt template fields = some template := by
  unfold safe_format_prompt
  dsimp only
  rw [escape_via_replace]
  rw [foldl_replace_id fields (escapeDouble template) ?_]
  · exact formatMapGo_escape fields template
  · intro kv hkv
    obtain ⟨hne, hbf⟩ := goodKey_split (hkeys kv hkv)
    rw [Bool.eq_false_iff]
    intro hcontra
    have hocc := occursInB_escaped_placeholder kv.1.data hne hbf template hcontra
    have hfalse := hnoocc kv hkv
    rw [placeholderOf] at hfalse
    rw [hfalse] at hocc
    cases hocc

/-- Helper: brace-free lists contain no opening brace. -/
theorem braceFree_no_obr {a : List Char} (h : braceFree a = true) :
    ∀ c ∈ a, c ≠ obrace := by
  intro c hc hco
  have h2 := List.all_eq_true.mp h c hc
  subst hco
  simp at h2

/-- Helper: brace-free lists contain no closing brace. -/
theorem braceFree_no_cbr {a : List Char} (h : braceFree a = true) :
    ∀ c ∈ a, c ≠ cbrace := by
  intro c hc hco
  have h2 := List.all_eq_true.mp h c hc
  subst hco
  simp at h2

/-- Helper: `format_map` copies a brace-free leading segment. -/
theorem formatMapGo_text_append (fields : List (String × String))
    {u : List Char} (s : List Char) (h : braceFree u = true) :
    formatMapGo fields .text (u ++ s) =
      (formatMapGo fields .text s).map (u ++ ·) := by
  induction u with
  | nil =>
    cases hr : formatMapGo fields .text s <;> simp [hr]
  | cons c u ih =>
    obtain ⟨hc, hu⟩ := braceFree_cons h
    have h1 : c ≠ obrace := fun hh => hc (Or.inl hh)
    have h2 : c ≠ cbrace := fun hh => hc (Or.inr hh)
    rw [List.cons_append,
      show formatMapGo fields .text (c :: (u ++ s)) =
        (formatMapGo fields .text (u ++ s)).map (c :: ·) from by
      simp [formatMapGo, h1, h2]]
    rw [ih hu]
    cases hr : formatMapGo fields .text s <;> simp [hr]

/-- Helper: `format_map` inside a replacement field accumulates the
brace-free key characters up to the closing brace, then emits the
field's value. -/
theorem formatMapGo_inField (fields : List (String × String)) (b : List Char) :
    ∀ (kr acc : List Char), braceFree kr = true →
    formatMapGo fields (.inField acc) (kr ++ cbrace :: b) =
      (formatMapGo fields .text b).map
        (fieldValue fields (acc.reverse ++ kr) ++ ·) := by
  intro kr
  induction kr with
  | nil =>
    intro acc _
    simp [formatMapGo]
  | cons c kr ih =>
    intro acc h
    obtain ⟨hc, hkr⟩ := braceFree_cons h
    have h2 : c ≠ cbrace := fun hh => hc (Or.inr hh)
    rw [List.cons_append,
      show formatMapGo fields (.inField acc) (c :: (kr ++ cbrace :: b)) =
        formatMapGo fields (.inField (c :: acc)) (kr ++ cbrace :: b) from by
      simp [formatMapGo, h2]]
    rw [ih (c :: acc) hkr]
    simp [List.reverse_cons, List.append_assoc]

/-- Helper: `format_map` resolves a whole placeholder whose key is
nonempty and brace-free. -/
theorem formatMapGo_field (fields : List (String × String)) (b : List Char)
    {k : List Char} (hne : k ≠ []) (hbf : braceFree k = true) :
    formatMapGo fields .text (obrace :: (k ++ cbrace :: b)) =
      (formatMapGo fields .text b).map (fieldValue fields k ++ ·) := by
  cases k with
  | nil => exact absurd rfl hne
  | cons kc kr =>
    obtain ⟨hkc, hkr⟩ := braceFree_cons hbf
    have h1 : kc ≠ obrace := fun hh => hkc (Or.inl hh)
    have h2 : kc ≠ cbrace := fun hh => hkc (Or.inr hh)
    rw [show formatMapGo fields .text (obrace :: (kc :: kr ++ cbrace :: b)) =
        formatMapGo fields .afterOpen (kc :: (kr ++ cbrace :: b)) from by
      simp [formatMapGo]]
    rw [show formatMapGo fields .afterOpen (kc :: (kr ++ cbrace :: b)) =
        formatMapGo fields (.inField [kc]) (kr ++ cbrace :: b) from by
      simp [formatMapGo, h1, h2]]
    rw [formatMapGo_inField fields b kr [kc] hkr]
    rfl

/-- Helper: `find?` skips entries whose key differs from `k` and stops
at the first entry keyed `k`. -/
theorem find_skip_to_key (f1 : List (String × String)) (k v : String)
    (f2 : List (String × String)) (hf1 : ∀ kv ∈ f1, kv.1 ≠ k) :
    (f1 ++ (k, v) :: f2).find? (fun kv => kv.1.data = k.data) = some (k, v) := by
  induction f1 with
  | nil =>
    rw [List.nil_append]
    exact List.find?_cons_of_pos _ (by simp)
  | cons kv f1 ih =>
    rw [List.cons_append]
    rw [List.find?_cons_of_neg]
    · exact ih (fun x hx => hf1 x (List.mem_cons_of_mem kv hx))
    · simp only [decide_eq_true_eq]
      intro hd
      exact hf1 kv (List.mem_cons_self kv f1) (string_data_inj hd)

/-- Helper: resolution of the replacement field named by `k` against
the fields list, when `k` is free of conversion/format markers and no
earlier entry shadows it. -/
theorem fieldValue_resolves (f1 f2 : List (String × String)) (k v : String)
    (hcol : ∀ c ∈ k.data, ¬(c = ':' ∨ c = '!'))
    (hf1 : ∀ kv ∈ f1, kv.1 ≠ k) :
    fieldValue (f1 ++ (k, v) :: f2) k.data = v.data := by
  have htake : ∀ l : List Char, (∀ c ∈ l, ¬(c = ':' ∨ c = '!')) →
      l.takeWhile (fun c => ¬(c = ':' ∨ c = '!')) = l := by
    intro l
    induction l with
    | nil => intro _; rfl
    | cons c l ih =>
      intro hl
      rw [List.takeWhile_cons,
        if_pos (by simpa using hl c (List.mem_cons_self c l))]
      rw [ih (fun d hd => hl d (List.mem_cons_of_mem c hd))]
  unfold fieldValue
  dsimp only
  rw [htake k.data hcol, find_skip_to_key f1 k v f2 hf1]

/-- Helper: two brace-free keys followed by doubled closing braces can
only align as prefixes when the keys are equal. -/
theorem key_prefix_unique :
    ∀ (k2 k m : List Char), braceFree k2 = true → braceFree k = true →
    (k2 ++ [cbrace, cbrace]) <+: (k ++ cbrace :: m) → k2 = k := by
  intro k2
  induction k2 with
  | nil =>
    intro k m _ hk hp
    cases k with
    | nil => rfl
    | cons kc kr =>
      rcases List.cons_prefix_cons.mp hp with ⟨hc, _⟩
      obtain ⟨hkc, _⟩ := braceFree_cons hk
      exact absurd (Or.inr hc.symm) hkc
  | cons c2 kr2 ih =>
    intro k m hk2 hk hp
    obtain ⟨hc2, hkr2⟩ := braceFree_cons hk2
    cases k with
    | nil =>
      rcases List.cons_prefix_cons.mp hp with ⟨hc, _⟩
      exact absurd (Or.inr hc) hc2
    | cons kc kr =>
      rcases List.cons_prefix_cons.mp hp with ⟨hc, htail⟩
      rw [hc, ih kr m hkr2 (braceFree_cons hk).2 htail]

/-- Helper: the doubled placeholder of a key `k2 ≠ k` does not occur in
the escaped template `a{{k}}b` (braces doubled, `a`, `b` brace-free). -/
theorem no_occur_doubled_other (k2 k a b : List Char)
    (hk2 : braceFree k2 = true) (hk : braceFree k = true) (hkne : k ≠ [])
    (hne : k2 ≠ k) (ha : braceFree a = true) (hb : braceFree b = true) :
    occursInB (obrace :: obrace :: (k2 ++ [cbrace, cbrace]))
      (a ++ obrace :: obrace :: (k ++ cbrace :: cbrace :: b)) = false := by
  rw [occursInB_append_skip _ _ (braceFree_no_obr ha)]
  rw [occursInB_cons, occursInB_cons]
  have h1 : (obrace :: obrace :: (k2 ++ [cbrace, cbrace])).isPrefixOf
      (obrace :: obrace :: (k ++ cbrace :: cbrace :: b)) = false := by
    rw [Bool.eq_false_iff]
    intro hp
    obtain ⟨_, hp1⟩ := List.cons_prefix_cons.mp (List.isPrefixOf_iff_prefix.mp hp)
    obtain ⟨_, hp2⟩ := List.cons_prefix_cons.mp hp1
    exact hne (key_prefix_unique k2 k (cbrace :: b) hk2 hk hp2)
  have h2 : (obrace :: obrace :: (k2 ++ [cbrace, cbrace])).isPrefixOf
      (obrace :: (k ++ cbrace :: cbrace :: b)) = false := by
    rw [Bool.eq_false_iff]
    intro hp
    obtain ⟨_, hp1⟩ := List.cons_prefix_cons.mp (List.isPrefixOf_iff_prefix.mp hp)
    cases k with
    | nil => exact absurd rfl hkne
    | cons kc kr =>
      rcases List.cons_prefix_cons.mp hp1 with ⟨hc, _⟩
      exact absurd (Or.inl hc.symm) (braceFree_cons hk).1
  have h3 : occursInB (obrace :: obrace :: (k2 ++ [cbrace, cbrace]))
      (k ++ cbrace :: cbrace :: b) = false := by
    rw [occursInB_append_skip _ _ (braceFree_no_obr hk),
      occursInB_head_skip _ _ (by decide), occursInB_head_skip _ _ (by decide)]
    exact occursInB_headless _ (braceFree_no_obr hb)
  rw [h1, h2, h3]
  rfl

/-- Helper: no doubled placeholder occurs in the string
`a{k}b` carrying only single braces (`a`, `b` brace-free, `k` a
nonempty brace-free key). -/
theorem no_occur_doubled_single (k3 k a b : List Char)
    (hk : braceFree k = true) (hkne : k ≠ [])
    (ha : braceFree a = true) (hb : braceFree b = true) :
    occursInB (obrace :: obrace :: (k3 ++ [cbrace, cbrace]))
      (a ++ obrace :: (k ++ cbrace :: b)) = false := by
  rw [occursInB_append_skip _ _ (braceFree_no_obr ha)]
  rw [occursInB_cons]
  have h1 : (obrace :: obrace :: (k3 ++ [cbrace, cbrace])).isPrefixOf
      (obrace :: (k ++ cbrace :: b)) = false := by
    rw [Bool.eq_false_iff]
    intro hp
    obtain ⟨_, hp1⟩ := List.cons_prefix_cons.mp (List.isPrefixOf_iff_prefix.mp hp)
    cases k with
    | nil => exact absurd rfl hkne
    | cons kc kr =>
      rcases List.cons_prefix_cons.mp hp1 with ⟨hc, _⟩
      exact absurd (Or.inl hc.symm) (braceFree_cons hk).1
  have h2 : occursInB (obrace :: obrace :: (k3 ++ [cbrace, cbrace]))
      (k ++ cbrace :: b) = false := by
    rw [occursInB_append_skip _ _ (braceFree_no_obr hk),
      occursInB_head_skip _ _ (by decide)]
    exact occursInB_headless _ (braceFree_no_obr hb)
  rw [h1, h2]
  rfl

/-- Helper: the un-escaping `str.replace` for key `k` rewrites exactly
the doubled placeholder occurrence in `a{{k}}b`. -/
theorem replace_at_key (k a b rep : List Char)
    (ha : braceFree a = true)
    (hb : braceFree b = true) :
    replaceAll (obrace :: obrace :: (k ++ [cbrace, cbrace])) rep
      (a ++ obrace :: obrace :: (k ++ cbrace :: cbrace :: b)) =
      a ++ rep ++ b := by
  unfold replaceAll
  dsimp only
  rw [replaceAllAux_append_skip _ _ _ _ (braceFree_no_obr ha)]
  rw [replaceAllAux_cons]
  rw [if_pos (List.isPrefixOf_iff_prefix.mpr
    ⟨b, by simp [List.append_assoc]⟩)]
  rw [show (obrace :: (k ++ cbrace :: cbrace :: b)).drop
      (obrace :: (k ++ [cbrace, cbrace])).length = b from by
    rw [show obrace :: (k ++ cbrace :: cbrace :: b) =
        (obrace :: (k ++ [cbrace, cbrace])) ++ b from by simp]
    exact List.drop_left _ _]
  rw [replaceAllAux_no_occur _ _ _ b
    (occursInB_headless _ (braceFree_no_obr hb))]
  simp [List.append_assoc]

/-- Helper (part 2 of C9): a recognised placeholder embedded in
brace-free surroundings is substituted by its field value, and nothing
else changes. -/
theorem safe_format_substitutes (a b : List Char) (k v : String)
    (f1 f2 : List (String × String))
    (ha : braceFree a = true) (hb : braceFree b = true)
    (hk : goodKey k = true)
    (hcol : ∀ c ∈ k.data, ¬(c = ':' ∨ c = '!'))
    (hgood : ∀ kv ∈ f1 ++ (k, v) :: f2, goodKey kv.1 = true)
    (hf1 : ∀ kv ∈ f1, kv.1 ≠ k) :
    safe_format_prompt (a ++ placeholderOf k ++ b) (f1 ++ (k, v) :: f2) =
      some (a ++ v.data ++ b) := by
  obtain ⟨hkne, hkbf⟩ := goodKey_split hk
  unfold safe_format_prompt
  dsimp only
  rw [escape_via_replace]
  rw [show escapeDouble (a ++ placeholderOf k ++ b) =
      a ++ obrace :: obrace :: (k.data ++ cbrace :: cbrace :: b) from by
    rw [escapeDouble_append, escapeDouble_append,
      escapeDouble_braceFree ha, escapeDouble_braceFree hb, placeholderOf]
    rw [show escapeDouble (obrace :: (k.data ++ [cbrace])) =
        obrace :: obrace :: escapeDouble (k.data ++ [cbrace]) from by
      simp [escapeDouble]]
    rw [escapeDouble_append, escapeDouble_braceFree hkbf]
    simp [escapeDouble, List.append_assoc]]
  rw [List.foldl_append]
  rw [foldl_replace_id f1 _ (fun kv hkv => by
    obtain ⟨_, hbf2⟩ := goodKey_split (hgood kv (List.mem_append_left _ hkv))
    exact no_occur_doubled_other kv.1.data k.data a b hbf2 hkbf hkne
      (fun hdd => hf1 kv hkv (string_data_inj hdd)) ha hb)]
  rw [List.foldl_cons]
  rw [show replaceAll (obrace :: obrace :: (k.data ++ [cbrace, cbrace]))
      (obrace :: (k.data ++ [cbrace]))
      (a ++ obrace :: obrace :: (k.data ++ cbrace :: cbrace :: b)) =
      a ++ (obrace :: (k.data ++ [cbrace])) ++ b from
    replace_at_key k.data a b _ ha hb]
  rw [show a ++ (obrace :: (k.data ++ [cbrace])) ++ b =
      a ++ obrace :: (k.data ++ cbrace :: b) from by
    simp [List.append_assoc]]
  rw [foldl_replace_id f2 _ (fun kv hkv =>
    no_occur_doubled_single kv.1.data k.data a b hkbf hkne ha hb)]
  rw [formatMapGo_text_append _ _ ha]
  rw [formatMapGo_field _ b hkne hkbf]
  rw [fieldValue_resolves f1 f2 k v hcol hf1]
  rw [show formatMapGo (f1 ++ (k, v) :: f2) .text b = some b from by
    have h := formatMapGo_escape (f1 ++ (k, v) :: f2) b
    rw [escapeDouble_braceFree hb] at h
    exact h]
  simp [List.append_assoc]


/-! ### C9, general equivalence with the specification renderer -/

/-- Helper: case equation of `markWith` on a cons cell. -/
theorem markWith_cons (sel : List (String × String)) (c : Char) (s : List Char) :
    markWith sel (c :: s) =
      if c = obrace then
        match sel.find? (fun kv => (kv.1.data ++ [cbrace]).isPrefixOf s) with
        | some kv =>
          obrace :: (kv.1.data ++ [cbrace]) ++
            markWith sel (s.drop (kv.1.data.length + 1))
        | none => obrace :: obrace :: markWith sel s
      else if c = cbrace then cbrace :: cbrace :: markWith sel s
      else c :: markWith sel s := by
  rw [markWith.eq_def]

/-- Helper: `markWith` on the empty template. -/
theorem markWith_nil (sel : List (String × String)) : markWith sel [] = [] := by
  rw [markWith.eq_def]

/-- Helper: case equation of `specRender` on a cons cell. -/
theorem specRender_cons (fields : List (String × String)) (c : Char)
    (s : List Char) :
    specRender fields (c :: s) =
      if c = obrace then
        match fields.find? (fun kv => (kv.1.data ++ [cbrace]).isPrefixOf s) with
        | some kv => kv.2.data ++ specRender fields (s.drop (kv.1.data.length + 1))
        | none => c :: specRender fields s
      else c :: specRender fields s := by
  rw [specRender.eq_def]

/-- Helper: `specRender` on the empty template. -/
theorem specRender_nil (fields : List (String × String)) :
    specRender fields [] = [] := by
  rw [specRender.eq_def]

/-- Helper: both brace-exclusions of a brace-free list at once. -/
theorem braceFree_chars {u : List Char} (h : braceFree u = true) :
    ∀ c ∈ u, ¬(c = obrace ∨ c = cbrace) := by
  intro c hc hco
  have h2 := List.all_eq_true.mp h c hc
  rcases hco with hco | hco <;> (subst hco; simp at h2)

/-- Helper: one scan step of `str.replace` over a character that is not
the pattern's head. -/
theorem replaceAllAux_head_skip (p : Char) (ps rep : List Char) {c : Char}
    (s : List Char) (h : c ≠ p) :
    replaceAllAux p ps rep (c :: s) = c :: replaceAllAux p ps rep s := by
  have := replaceAllAux_append_skip p ps rep (u := [c]) s
    (fun d hd => by rcases List.mem_singleton.mp hd with rfl; exact h)
  simpa using this

/-- Helper: `find?` looks in the left part of an append first. -/
theorem find_append_left {p : String × String → Bool}
    {l1 : List (String × String)} (l2 : List (String × String))
    {a : String × String} (h : l1.find? p = some a) :
    (l1 ++ l2).find? p = some a := by
  induction l1 with
  | nil => cases h
  | cons x l1 ih =>
    rw [List.cons_append]
    cases hx : p x with
    | true =>
      rw [List.find?_cons_of_pos _ hx]
      rw [List.find?_cons_of_pos _ hx] at h
      exact h
    | false =>
      rw [List.find?_cons_of_neg _ (by simp [hx])]
      rw [List.find?_cons_of_neg _ (by simp [hx])] at h
      exact ih h

/-- Helper: `find?` falls through an exhausted left part. -/
theorem find_append_none {p : String × String → Bool}
    {l1 : List (String × String)} (l2 : List (String × String))
    (h : l1.find? p = none) :
    (l1 ++ l2).find? p = l2.find? p := by
  induction l1 with
  | nil => rfl
  | cons x l1 ih =>
    rw [List.cons_append]
    cases hx : p x with
    | true =>
      rw [List.find?_cons_of_pos _ hx] at h
      cases h
    | false =>
      rw [List.find?_cons_of_neg _ (by simp [hx])] at h
      rw [List.find?_cons_of_neg _ (by simp [hx])]
      exact ih h

/-- Helper: a `find?` result transfers to a weaker predicate that the
found element satisfies. -/
theorem find_transfer {P Q : String × String → Bool}
    {l : List (String × String)} {a : String × String}
    (h : l.find? P = some a) (himp : ∀ x ∈ l, Q x = true → P x = true)
    (ha : Q a = true) : l.find? Q = some a := by
  induction l with
  | nil => cases h
  | cons x l ih =>
    cases hq : Q x with
    | true =>
      rw [List.find?_cons_of_pos _ hq]
      have hp := himp x (List.mem_cons_self x l) hq
      rw [List.find?_cons_of_pos _ hp] at h
      exact h
    | false =>
      rw [List.find?_cons_of_neg _ (by simp [hq])]
      cases hp : P x with
      | true =>
        rw [List.find?_cons_of_pos _ hp] at h
        cases h
        rw [ha] at hq
        cases hq
      | false =>
        rw [List.find?_cons_of_neg _ (by simp [hp])] at h
        exact ih h (fun y hy => himp y (List.mem_cons_of_mem x hy))

/-- Helper: with no key selected, `markWith` is exactly the brace
doubling. -/
theorem markWith_empty_sel : ∀ t, markWith [] t = escapeDouble t := by
  intro t
  induction t with
  | nil => rw [markWith_nil]; rfl
  | cons c t ih =>
    rw [markWith_cons]
    by_cases hob : c = obrace
    · subst hob
      simp only [if_pos rfl, List.find?_nil]
      rw [ih]
      simp [escapeDouble]
    · by_cases hcb : c = cbrace
      · subst hcb
        rw [if_neg hob, if_pos rfl, ih]
        simp [escapeDouble]
      · rw [if_neg hob, if_neg hcb, ih]
        simp [escapeDouble, hob, hcb]

/-- Helper: `markWith` copies a leading brace-free segment verbatim. -/
theorem markWith_append_plain (sel : List (String × String)) {u : List Char}
    (w : List Char) (h : braceFree u = true) :
    markWith sel (u ++ w) = u ++ markWith sel w := by
  induction u with
  | nil => rfl
  | cons c u ih =>
    obtain ⟨hc, hu⟩ := braceFree_cons h
    rw [List.cons_append, markWith_cons,
      if_neg (fun hh => hc (Or.inl hh)), if_neg (fun hh => hc (Or.inr hh)),
      ih hu, List.cons_append]

/-- Helper: reading a brace-free key followed by a closing brace out of
`markWith` output means the key occurrence is present in the source. -/
theorem markWith_key_read (sel : List (String × String)) :
    ∀ (k : List Char), braceFree k = true → ∀ (s q : List Char),
    (k ++ cbrace :: q).isPrefixOf (markWith sel s) = true →
    (k ++ [cbrace]).isPrefixOf s = true := by
  intro k
  induction k with
  | nil =>
    intro _ s q h
    cases s with
    | nil => rw [markWith_nil] at h; cases h
    | cons c s2 =>
      rw [markWith_cons] at h
      by_cases hob : c = obrace
      · subst hob
        rw [if_pos rfl] at h
        exfalso
        cases hf : List.find? (fun kv => (kv.1.data ++ [cbrace]).isPrefixOf s2) sel with
        | some kv =>
          rw [hf] at h
          rcases List.cons_prefix_cons.mp (List.isPrefixOf_iff_prefix.mp h) with ⟨hc, _⟩
          exact absurd hc (by decide)
        | none =>
          rw [hf] at h
          rcases List.cons_prefix_cons.mp (List.isPrefixOf_iff_prefix.mp h) with ⟨hc, _⟩
          exact absurd hc (by decide)
      · by_cases hcb : c = cbrace
        · subst hcb
          simp [List.isPrefixOf]
        · rw [if_neg hob, if_neg hcb] at h
          rcases List.cons_prefix_cons.mp (List.isPrefixOf_iff_prefix.mp h) with ⟨hc, _⟩
          exact absurd hc.symm hcb
  | cons kc kr ih =>
    intro hbf s q h
    obtain ⟨hkc, hkr⟩ := braceFree_cons hbf
    cases s with
    | nil => rw [markWith_nil] at h; cases h
    | cons c s2 =>
      rw [markWith_cons] at h
      by_cases hob : c = obrace
      · subst hob
        rw [if_pos rfl] at h
        exfalso
        cases hf : List.find? (fun kv => (kv.1.data ++ [cbrace]).isPrefixOf s2) sel with
        | some kv =>
          rw [hf] at h
          rcases List.cons_prefix_cons.mp (List.isPrefixOf_iff_prefix.mp h) with ⟨hc, _⟩
          exact hkc (Or.inl hc)
        | none =>
          rw [hf] at h
          rcases List.cons_prefix_cons.mp (List.isPrefixOf_iff_prefix.mp h) with ⟨hc, _⟩
          exact hkc (Or.inl hc)
      · by_cases hcb : c = cbrace
        · subst hcb
          rw [if_neg hob, if_pos rfl] at h
          rcases List.cons_prefix_cons.mp (List.isPrefixOf_iff_prefix.mp h) with ⟨hc, _⟩
          exact absurd (Or.inr hc) hkc
        · rw [if_neg hob, if_neg hcb] at h
          rcases List.cons_prefix_cons.mp (List.isPrefixOf_iff_prefix.mp h) with ⟨hc, htail⟩
          have hrest := ih hkr s2 q (List.isPrefixOf_iff_prefix.mpr htail)
          apply List.isPrefixOf_iff_prefix.mpr
          rw [List.cons_append, List.cons_prefix_cons]
          exact ⟨hc, List.isPrefixOf_iff_prefix.mp hrest⟩

/-- Helper: at a given position at most one brace-free key can match
(the key content is delimited by the first closing brace). -/
theorem key_match_unique :
    ∀ (k1 k2 s : List Char), braceFree k1 = true → braceFree k2 = true →
    (k1 ++ [cbrace]).isPrefixOf s = true →
    (k2 ++ [cbrace]).isPrefixOf s = true → k1 = k2 := by
  intro k1
  induction k1 with
  | nil =>
    intro k2 s _ hk2 h1 h2
    cases s with
    | nil => cases h1
    | cons c s2 =>
      rcases List.cons_prefix_cons.mp (List.isPrefixOf_iff_prefix.mp h1) with ⟨hc, _⟩
      cases k2 with
      | nil => rfl
      | cons c2 kr2 =>
        rcases List.cons_prefix_cons.mp (List.isPrefixOf_iff_prefix.mp h2) with ⟨hc2, _⟩
        exact absurd (Or.inr (hc2.trans hc.symm)) (braceFree_cons hk2).1
  | cons c1 kr1 ih =>
    intro k2 s hk1 hk2 h1 h2
    obtain ⟨hc1, hkr1⟩ := braceFree_cons hk1
    cases s with
    | nil => cases h1
    | cons c s2 =>
      rcases List.cons_prefix_cons.mp (List.isPrefixOf_iff_prefix.mp h1) with ⟨hca, hta⟩
      cases k2 with
      | nil =>
        rcases List.cons_prefix_cons.mp (List.isPrefixOf_iff_prefix.mp h2) with ⟨hcb, _⟩
        exact absurd (Or.inr (hca.trans hcb.symm)) hc1
      | cons c2 kr2 =>
        rcases List.cons_prefix_cons.mp (List.isPrefixOf_iff_prefix.mp h2) with ⟨hcb, htb⟩
        rw [show c1 = c2 from hca.trans hcb.symm,
          ih kr2 s2 hkr1 (braceFree_cons hk2).2
            (List.isPrefixOf_iff_prefix.mpr hta)
            (List.isPrefixOf_iff_prefix.mpr htb)]

/-- Helper: `markWith` output never contains an opening brace directly
followed by the doubled placeholder tail of an unselected key: the only
single-brace openings it produces belong to selected keys. -/
theorem markWith_no_obr_key (sel : List (String × String)) (k2 : String)
    (hgood : ∀ kv ∈ sel, goodKey kv.1 = true) (hk2 : goodKey k2 = true)
    (hnot : ∀ kv ∈ sel, kv.1 ≠ k2) (s : List Char)
    (h : (obrace :: (k2.data ++ [cbrace, cbrace])).isPrefixOf
      (markWith sel s) = true) : False := by
  obtain ⟨hk2ne, hk2bf⟩ := goodKey_split hk2
  cases s with
  | nil => rw [markWith_nil] at h; cases h
  | cons c s2 =>
    rw [markWith_cons] at h
    by_cases hob : c = obrace
    · subst hob
      rw [if_pos rfl] at h
      cases hf : List.find? (fun kv => (kv.1.data ++ [cbrace]).isPrefixOf s2) sel with
      | some kv =>
        rw [hf] at h
        obtain ⟨_, hp1⟩ :=
          List.cons_prefix_cons.mp (List.isPrefixOf_iff_prefix.mp h)
        have hkvmem := List.mem_of_find?_eq_some hf
        obtain ⟨_, hkvbf⟩ := goodKey_split (hgood kv hkvmem)
        have heq : k2.data = kv.1.data := by
          apply key_prefix_unique k2.data kv.1.data
            (markWith sel (s2.drop (kv.1.data.length + 1))) hk2bf hkvbf
          have hshape : (kv.1.data ++ [cbrace]) ++
              markWith sel (s2.drop (kv.1.data.length + 1)) =
              kv.1.data ++ cbrace ::
                markWith sel (s2.drop (kv.1.data.length + 1)) := by
            simp
          rw [← hshape]
          exact hp1
        exact hnot kv hkvmem (string_data_inj heq).symm
      | none =>
        rw [hf] at h
        obtain ⟨_, hp1⟩ :=
          List.cons_prefix_cons.mp (List.isPrefixOf_iff_prefix.mp h)
        cases hkd : k2.data with
        | nil => exact hk2ne hkd
        | cons kd kdr =>
          rw [hkd] at hp1
          rcases List.cons_prefix_cons.mp hp1 with ⟨hc, _⟩
          have := braceFree_cons (hkd ▸ hk2bf)
          exact this.1 (Or.inl hc)
    · by_cases hcb : c = cbrace
      · subst hcb
        rw [if_neg hob, if_pos rfl] at h
        rcases List.cons_prefix_cons.mp (List.isPrefixOf_iff_prefix.mp h) with ⟨hc, _⟩
        exact absurd hc (by decide)
      · rw [if_neg hob, if_neg hcb] at h
        rcases List.cons_prefix_cons.mp (List.isPrefixOf_iff_prefix.mp h) with ⟨hc, _⟩
        exact hob hc.symm

/-- Helper: one un-escaping `str.replace` pass for key `k2` rewrites
exactly the doubled placeholders of `k2` in a partially un-escaped
template, i.e. it extends the selection by `k2`.  Requires the selected
keys and `k2` to be good keys with `k2` not among the selection (as for
a Python dict's distinct keys). -/
theorem replace_mark_step (sel : List (String × String)) (k2 v2 : String)
    (hgood : ∀ kv ∈ sel, goodKey kv.1 = true) (hk2 : goodKey k2 = true)
    (hnot : ∀ kv ∈ sel, kv.1 ≠ k2) :
    ∀ s, replaceAll (obrace :: obrace :: (k2.data ++ [cbrace, cbrace]))
        (obrace :: (k2.data ++ [cbrace])) (markWith sel s) =
      markWith (sel ++ [(k2, v2)]) s := by
  obtain ⟨hk2ne, hk2bf⟩ := goodKey_split hk2
  suffices H : ∀ n (s : List Char), s.length ≤ n →
      replaceAll (obrace :: obrace :: (k2.data ++ [cbrace, cbrace]))
        (obrace :: (k2.data ++ [cbrace])) (markWith sel s) =
      markWith (sel ++ [(k2, v2)]) s from fun s => H s.length s le_rfl
  intro n
  induction n with
  | zero =>
    intro s hs
    have hnil : s = [] := List.eq_nil_of_length_eq_zero (Nat.le_zero.mp hs)
    subst hnil
    rw [markWith_nil, markWith_nil]
    exact replaceAllAux_nil _ _ _
  | succ n ih =>
    intro s hs
    cases s with
    | nil =>
      rw [markWith_nil, markWith_nil]
      exact replaceAllAux_nil _ _ _
    | cons c s2 =>
      have hs2 : s2.length ≤ n := by
        simp only [List.length_cons] at hs
        omega
      rw [markWith_cons, markWith_cons]
      by_cases hob : c = obrace
      · subst hob
        rw [if_pos rfl, if_pos rfl]
        cases hf : List.find? (fun kv => (kv.1.data ++ [cbrace]).isPrefixOf s2) sel with
        | some kv =>
          have hf2 : List.find? (fun kv => (kv.1.data ++ [cbrace]).isPrefixOf s2)
              (sel ++ [(k2, v2)]) = some kv := find_append_left _ hf
          rw [hf2]
          dsimp only
          have hkvmem := List.mem_of_find?_eq_some hf
          obtain ⟨hkvne, hkvbf⟩ := goodKey_split (hgood kv hkvmem)
          unfold replaceAll
          dsimp only
          rw [show (obrace :: (kv.1.data ++ [cbrace])) ++
              markWith sel (s2.drop (kv.1.data.length + 1)) =
              obrace :: (kv.1.data ++ (cbrace ::
                markWith sel (s2.drop (kv.1.data.length + 1)))) from by simp]
          rw [replaceAllAux_cons]
          rw [if_neg ?pre4a]
          case pre4a =>
            intro hp
            obtain ⟨_, hp1⟩ :=
              List.cons_prefix_cons.mp (List.isPrefixOf_iff_prefix.mp hp)
            cases hkd : kv.1.data with
            | nil => exact hkvne hkd
            | cons kd kdr =>
              rw [hkd, List.cons_append] at hp1
              rcases List.cons_prefix_cons.mp hp1 with ⟨hc, _⟩
              exact (braceFree_cons (hkd ▸ hkvbf)).1 (Or.inl hc.symm)
          rw [replaceAllAux_append_skip _ _ _ _ (braceFree_no_obr hkvbf)]
          rw [replaceAllAux_head_skip _ _ _ _ (by decide)]
          have hdlen : (s2.drop (kv.1.data.length + 1)).length ≤ n := by
            have := List.length_drop (kv.1.data.length + 1) s2
            omega
          have := ih (s2.drop (kv.1.data.length + 1)) hdlen
          unfold replaceAll at this
          dsimp only at this
          rw [this]
          simp
        | none =>
          by_cases hmatch : (k2.data ++ [cbrace]).isPrefixOf s2 = true
          · have hf2 : List.find?
                (fun kv => (kv.1.data ++ [cbrace]).isPrefixOf s2)
                (sel ++ [(k2, v2)]) = some (k2, v2) := by
              rw [find_append_none _ hf]
              exact List.find?_cons_of_pos _ hmatch
            rw [hf2]
            dsimp only
            obtain ⟨s3, hs3⟩ := List.isPrefixOf_iff_prefix.mp hmatch
            have hms2 : markWith sel s2 =
                k2.data ++ cbrace :: cbrace :: markWith sel s3 := by
              rw [← hs3,
                show (k2.data ++ [cbrace]) ++ s3 = k2.data ++ (cbrace :: s3)
                  from by simp,
                markWith_append_plain sel _ hk2bf, markWith_cons,
                if_neg (by decide : ¬ (cbrace = obrace)), if_pos rfl]
            rw [hms2]
            unfold replaceAll
            dsimp only
            rw [replaceAllAux_cons]
            rw [if_pos (List.isPrefixOf_iff_prefix.mpr
              ⟨markWith sel s3, by simp⟩)]
            rw [show List.drop (obrace :: (k2.data ++ [cbrace, cbrace])).length
                (obrace :: (k2.data ++ cbrace :: cbrace :: markWith sel s3)) =
                markWith sel s3 from ?dropeq]
            case dropeq =>
              rw [show obrace :: (k2.data ++ cbrace :: cbrace :: markWith sel s3) =
                  (obrace :: (k2.data ++ [cbrace, cbrace])) ++ markWith sel s3
                  from by simp]
              exact List.drop_left _ _
            have hs3len : s3.length ≤ n := by
              have : s2.length = (k2.data ++ [cbrace]).length + s3.length := by
                rw [← hs3, List.length_append]
              simp only [List.length_append, List.length_cons] at this
              omega
            have := ih s3 hs3len
            unfold replaceAll at this
            dsimp only at this
            rw [this]
            have hdrop2 : s2.drop (k2.data.length + 1) = s3 := by
              rw [← hs3,
                show k2.data.length + 1 = (k2.data ++ [cbrace]).length from by simp]
              exact List.drop_left _ _
            rw [hdrop2]
          · have hf2 : List.find?
                (fun kv => (kv.1.data ++ [cbrace]).isPrefixOf s2)
                (sel ++ [(k2, v2)]) = none := by
              rw [find_append_none _ hf]
              rw [List.find?_cons_of_neg _ (by simp [hmatch]), List.find?_nil]
            rw [hf2]
            dsimp only
            unfold replaceAll
            dsimp only
            rw [replaceAllAux_cons]
            rw [if_neg ?pre4c1]
            case pre4c1 =>
              intro hp
              obtain ⟨_, hp1⟩ :=
                List.cons_prefix_cons.mp (List.isPrefixOf_iff_prefix.mp hp)
              obtain ⟨_, hp2⟩ := List.cons_prefix_cons.mp hp1
              have := markWith_key_read sel k2.data hk2bf s2 [cbrace]
                (List.isPrefixOf_iff_prefix.mpr (by simpa using hp2))
              exact hmatch this
            rw [replaceAllAux_cons]
            rw [if_neg ?pre4c2]
            case pre4c2 =>
              intro hp
              obtain ⟨_, hp1⟩ :=
                List.cons_prefix_cons.mp (List.isPrefixOf_iff_prefix.mp hp)
              exact markWith_no_obr_key sel k2 hgood hk2 hnot s2
                (List.isPrefixOf_iff_prefix.mpr hp1)
            have := ih s2 hs2
            unfold replaceAll at this
            dsimp only at this
            rw [this]
      · by_cases hcb : c = cbrace
        · subst hcb
          rw [if_neg hob, if_neg hob, if_pos rfl, if_pos rfl]
          unfold replaceAll
          dsimp only
          rw [replaceAllAux_head_skip _ _ _ _ (by decide),
            replaceAllAux_head_skip _ _ _ _ (by decide)]
          have := ih s2 hs2
          unfold replaceAll at this
          dsimp only at this
          rw [this]
        · rw [if_neg hob, if_neg hob, if_neg hcb, if_neg hcb]
          unfold replaceAll
          dsimp only
          rw [replaceAllAux_head_skip _ _ _ _ hob]
          have := ih s2 hs2
          unfold replaceAll at this
          dsimp only at this
          rw [this]

/-- Helper: the per-key un-escaping fold of `_safe_format_prompt`
transforms a `sel`-marked template into the `sel ++ rest`-marked one,
one `str.replace` pass per remaining key. -/
theorem foldl_mark : ∀ (rest sel : List (String × String)) (t : List Char),
    (∀ kv ∈ sel ++ rest, goodKey kv.1 = true) →
    ((sel ++ rest).map Prod.fst).Nodup →
    rest.foldl
      (fun s kv =>
        replaceAll (obrace :: obrace :: (kv.1.data ++ [cbrace, cbrace]))
          (obrace :: (kv.1.data ++ [cbrace])) s) (markWith sel t) =
      markWith (sel ++ rest) t := by
  intro rest
  induction rest with
  | nil =>
    intro sel t _ _
    simp [List.foldl_nil]
  | cons kv2 rest ih =>
    intro sel t hgood hnodup
    rw [List.foldl_cons]
    have hnot : ∀ kv ∈ sel, kv.1 ≠ kv2.1 := by
      intro kv hkv heq
      rw [List.map_append, List.nodup_append] at hnodup
      exact hnodup.2.2 (List.mem_map_of_mem Prod.fst hkv)
        (by rw [heq]; exact List.mem_cons_self _ _)
    have hstep :
        replaceAll (obrace :: obrace :: (kv2.1.data ++ [cbrace, cbrace]))
          (obrace :: (kv2.1.data ++ [cbrace])) (markWith sel t) =
        markWith (sel ++ [kv2]) t := by
      have := replace_mark_step sel kv2.1 kv2.2
        (fun kv hkv => hgood kv (List.mem_append_left _ hkv))
        (hgood kv2 (by simp)) hnot t
      simpa using this
    rw [hstep]
    have hassoc : (sel ++ [kv2]) ++ rest = sel ++ kv2 :: rest := by simp
    have := ih (sel ++ [kv2]) t (by rw [hassoc]; exact hgood)
      (by rw [hassoc]; exact hnodup)
    rw [hassoc] at this
    exact this

/-- Helper: when the marking pass found `kv` by some search predicate
that is determined by the key text, the scanner's field lookup for
`kv`'s key resolves to `kv`'s value. -/
theorem fieldValue_of_found (fields : List (String × String))
    (kv : String × String) (P : String × String → Bool)
    (hcol : ∀ c ∈ kv.1.data, ¬(c = ':' ∨ c = '!'))
    (hP : ∀ x ∈ fields, x.1.data = kv.1.data → P x = true)
    (hf : fields.find? P = some kv) :
    fieldValue fields kv.1.data = kv.2.data := by
  have htake : ∀ l : List Char, (∀ c ∈ l, ¬(c = ':' ∨ c = '!')) →
      l.takeWhile (fun c => ¬(c = ':' ∨ c = '!')) = l := by
    intro l
    induction l with
    | nil => intro _; rfl
    | cons c l ih =>
      intro hl
      rw [List.takeWhile_cons,
        if_pos (by simpa using hl c (List.mem_cons_self c l))]
      rw [ih (fun d hd => hl d (List.mem_cons_of_mem c hd))]
  have hq : fields.find? (fun x => x.1.data = kv.1.data) = some kv :=
    find_transfer hf (fun x hx hqx => hP x hx (by simpa using hqx)) (by simp)
  unfold fieldValue
  dsimp only
  rw [htake kv.1.data hcol, hq]

/-- Helper: scanning the marked template with `format_map` succeeds and
produces the left-to-right rendering of the original template. -/
theorem formatMap_markWith (fields : List (String × String))
    (hgood : ∀ kv ∈ fields, goodKey kv.1 = true)
    (hcol : ∀ kv ∈ fields, ∀ c ∈ kv.1.data, ¬(c = ':' ∨ c = '!')) :
    ∀ t, formatMapGo fields .text (markWith fields t) =
      some (specRender fields t) := by
  suffices H : ∀ n (t : List Char), t.length ≤ n →
      formatMapGo fields .text (markWith fields t) =
      some (specRender fields t) from fun t => H t.length t le_rfl
  intro n
  induction n with
  | zero =>
    intro t ht
    have hnil : t = [] := List.eq_nil_of_length_eq_zero (Nat.le_zero.mp ht)
    subst hnil
    rw [markWith_nil, specRender_nil]
    rfl
  | succ n ih =>
    intro t ht
    cases t with
    | nil =>
      rw [markWith_nil, specRender_nil]
      rfl
    | cons c t2 =>
      have ht2 : t2.length ≤ n := by
        simp only [List.length_cons] at ht
        omega
      rw [markWith_cons, specRender_cons]
      by_cases hob : c = obrace
      · subst hob
        rw [if_pos rfl, if_pos rfl]
        cases hf : List.find?
            (fun kv => (kv.1.data ++ [cbrace]).isPrefixOf t2) fields with
        | some kv =>
          dsimp only
          have hkvmem := List.mem_of_find?_eq_some hf
          obtain ⟨hkvne, hkvbf⟩ := goodKey_split (hgood kv hkvmem)
          rw [show (obrace :: (kv.1.data ++ [cbrace])) ++
              markWith fields (t2.drop (kv.1.data.length + 1)) =
              obrace :: (kv.1.data ++ (cbrace ::
                markWith fields (t2.drop (kv.1.data.length + 1))))
              from by simp]
          rw [formatMapGo_field fields _ hkvne hkvbf]
          have hdlen : (t2.drop (kv.1.data.length + 1)).length ≤ n := by
            have := List.length_drop (kv.1.data.length + 1) t2
            omega
          rw [ih (t2.drop (kv.1.data.length + 1)) hdlen]
          rw [fieldValue_of_found fields kv _ (hcol kv hkvmem) ?himp hf]
          case himp =>
            intro x hx hxe
            have hp := List.find?_some hf
            rw [show x.1.data ++ [cbrace] = kv.1.data ++ [cbrace]
                from by rw [hxe]]
            exact hp
          rfl
        | none =>
          dsimp only
          simp [formatMapGo, ih t2 ht2]
      · by_cases hcb : c = cbrace
        · subst hcb
          rw [if_neg hob, if_neg hob, if_pos rfl]
          simp [formatMapGo, ih t2 ht2,
            show cbrace ≠ obrace from by decide]
        · rw [if_neg hob, if_neg hob, if_neg hcb]
          simp [formatMapGo, ih t2 ht2, hob, hcb]

/-- Helper: when no recognised placeholder occurs in the template, the
specification renderer passes every character through unchanged. -/
theorem specRender_passthrough (fields : List (String × String)) :
    ∀ t, (∀ kv ∈ fields, occursInB (placeholderOf kv.1) t = false) →
    specRender fields t = t := by
  suffices H : ∀ n (t : List Char), t.length ≤ n →
      (∀ kv ∈ fields, occursInB (placeholderOf kv.1) t = false) →
      specRender fields t = t from fun t => H t.length t le_rfl
  intro n
  induction n with
  | zero =>
    intro t ht _
    have hnil : t = [] := List.eq_nil_of_length_eq_zero (Nat.le_zero.mp ht)
    subst hnil
    exact specRender_nil fields
  | succ n ih =>
    intro t ht hno
    cases t with
    | nil => exact specRender_nil fields
    | cons c t2 =>
      have ht2 : t2.length ≤ n := by
        simp only [List.length_cons] at ht
        omega
      have hno2 : ∀ kv ∈ fields,
          occursInB (placeholderOf kv.1) t2 = false := by
        intro kv hkv
        have := hno kv hkv
        rw [occursInB_cons, Bool.or_eq_false_iff] at this
        exact this.2
      rw [specRender_cons]
      by_cases hob : c = obrace
      · subst hob
        rw [if_pos rfl]
        cases hf : List.find?
            (fun kv => (kv.1.data ++ [cbrace]).isPrefixOf t2) fields with
        | some kv =>
          exfalso
          have hkvmem := List.mem_of_find?_eq_some hf
          have hp := List.find?_some hf
          have hpre : (obrace :: (kv.1.data ++ [cbrace])).isPrefixOf
              (obrace :: t2) = true :=
            List.isPrefixOf_iff_prefix.mpr (List.cons_prefix_cons.mpr
              ⟨rfl, List.isPrefixOf_iff_prefix.mp hp⟩)
          have ho := hno kv hkvmem
          rw [placeholderOf, occursInB_cons, Bool.or_eq_false_iff] at ho
          rw [hpre] at ho
          exact absurd ho.1 (by decide)
        | none =>
          dsimp only
          rw [ih t2 ht2 hno2]
      · rw [if_neg hob, ih t2 ht2 hno2]

/-- **C9.** `_safe_format_prompt` substitutes exactly the recognised
placeholder names and passes every other character of the template
through unchanged: (1) for every template — literal braces and
placeholders freely mixed — the result is `specRender fields template`,
the left-to-right rendering that replaces each occurrence of
`\x7bkey\x7d` for a known key by that field's value and copies every
other character, braces included, verbatim; (2) whenever no recognised
placeholder occurs in the template, that rendering is the template
itself, so a template's literal braces appear verbatim in the output.
(Keys are nonempty brace-free names without `:` or `!` and pairwise
distinct — as Python dict keys are — which all of `rewrite_content`'s
field names satisfy.) -/
theorem safe_format_prompt_braces_verbatim :
    (∀ (template : List Char) (fields : List (String × String)),
      (∀ kv ∈ fields, goodKey kv.1 = true) →
      (∀ kv ∈ fields, ∀ c ∈ kv.1.data, ¬(c = ':' ∨ c = '!')) →
      (fields.map Prod.fst).Nodup →
      safe_format_prompt template fields =
        some (specRender fields template)) ∧
    (∀ (template : List Char) (fields : List (String × String)),
      (∀ kv ∈ fields, occursInB (placeholderOf kv.1) template = false) →
      specRender fields template = template) := by
  constructor
  · intro template fields hgood hcol hnodup
    have hfold := foldl_mark fields [] template
      (by simpa using hgood) (by simpa using hnodup)
    rw [List.nil_append] at hfold
    rw [markWith_empty_sel] at hfold
    unfold safe_format_prompt
    dsimp only
    rw [escape_via_replace, hfold]
    exact formatMap_markWith fields hgood hcol template
  · intro template fields hno
    exact specRender_passthrough fields template hno

/-- Witness for C9: a template mixing a literal JSON brace pair with a
recognised `titulo_original` placeholder renders as its specification
rendering, and on a placeholder-free literal-brace template that
rendering is the template itself. -/
theorem safe_format_prompt_braces_verbatim_witness :
    safe_format_prompt
        ("Regras: ".data ++ obrace :: ("\"a\": 1".data ++ cbrace ::
          " Titulo: ".data) ++ placeholderOf "titulo_original" ++
          " fim".data)
        [("titulo_original", "Gol no fim"), ("tag", "futebol"),
         ("tags", "futebol, gols")] =
      some (specRender
        [("titulo_original", "Gol no fim"), ("tag", "futebol"),
         ("tags", "futebol, gols")]
        ("Regras: ".data ++ obrace :: ("\"a\": 1".data ++ cbrace ::
          " Titulo: ".data) ++ placeholderOf "titulo_original" ++
          " fim".data)) ∧
    specRender [("titulo_original", "Gol"), ("tag", "futebol")]
        ("Regras: ".data ++ obrace :: ("\"a\": 1".data ++ [cbrace])) =
      "Regras: ".data ++ obrace :: ("\"a\": 1".data ++ [cbrace]) :=
  ⟨safe_format_prompt_braces_verbatim.1 _ _ (by decide) (by decide)
      (by decide),
   safe_format_prompt_braces_verbatim.2 _ _ (by decide)⟩
